import Mathlib

/-!
# A TF-IDF search server: embedding of `search-server/main.cpp`

The C++ program keeps an inverted index `word -> (document id -> tf)` and
answers a query with the five most relevant documents.  This file embeds the
program as pure functions and proves properties of it.

Modelling conventions.

* `std::string` is the sequence of its characters (`Str := List Char`).
* `std::set<string>` and `std::map<K, V>` are lists kept in key order by the
  insertion functions below.  The functions are defined on every list; the
  container invariant is stated as a hypothesis where a theorem needs it.
* `double` is taken exactly: the number type is any linearly ordered field `R`
  (the real numbers are an instance) and `log` is a parameter `R → R`
  (the natural logarithm is an instance).
* `std::sort` is library code: it is a parameter together with its contract,
  `StdSort`.
* `std::map::at` throws on a missing key: the functions using it return an
  `Option`, `none` standing for the exception.
-/

namespace SearchServerModel

set_option linter.unusedSectionVars false

/-- The `std::string` of the program: its characters in order. -/
abbrev Str := List Char

/-! ## Ordered containers -/

/-- Lexicographic comparison of two strings, `operator<` of `std::string`. -/
def strLess : Str → Str → Bool
  | _, [] => false
  | [], _ :: _ => true
  | a :: as, b :: bs => if a < b then true else if b < a then false else strLess as bs

/-- Comparison of two `int` keys, `std::less<int>`. -/
def intLess (a b : Int) : Bool := decide (a < b)

/-- Places `x` in front of the first element that is greater than it: the
position at which an ordered container stores a new key. -/
def insertSorted {α : Type} (lt : α → α → Bool) (x : α) : List α → List α
  | [] => [x]
  | y :: ys => if lt x y then x :: y :: ys else y :: insertSorted lt x ys

/-- The call `s.insert(x)` of `std::set`: nothing happens when `x` is already an
element, otherwise `x` is stored at its place in the order. -/
def setInsert {α : Type} [DecidableEq α] (lt : α → α → Bool) (s : List α) (x : α) : List α :=
  if x ∈ s then s else insertSorted lt x s

/-- The call `s.count(x)` of `std::set`: 1 when `x` is an element, else 0. -/
def setCount {α : Type} [DecidableEq α] (s : List α) (x : α) : Nat :=
  if x ∈ s then 1 else 0

/-- Lookup of a key in a map: the value stored under the key, if any. -/
def mapFind? {K V : Type} [DecidableEq K] : List (K × V) → K → Option V
  | [], _ => none
  | (k', v) :: rest, k => if k' = k then some v else mapFind? rest k

/-- The call `m.count(k)` of `std::map`: 1 when the key is present, else 0. -/
def mapCount {K V : Type} [DecidableEq K] (m : List (K × V)) (k : K) : Nat :=
  if (mapFind? m k).isSome then 1 else 0

/-- The call `m.at(k)` of `std::map`: the value under `k`; `none` stands for the
`std::out_of_range` exception thrown when the key is absent. -/
def mapAt {K V : Type} [DecidableEq K] (m : List (K × V)) (k : K) : Option V :=
  mapFind? m k

/-- Applies `f` to the value stored under the key `k` (the key is present). -/
def mapReplace {K V : Type} [DecidableEq K] (k : K) (f : V → V) : List (K × V) → List (K × V)
  | [] => []
  | (k', v) :: rest => if k' = k then (k', f v) :: rest else (k', v) :: mapReplace k f rest

/-- The statement `m[k] = f(m[k])` of `std::map`: `operator[]` first stores the
value-initialised `dflt` under `k`, at its place in the key order, when the key
is absent; then the value under `k` is replaced by its image under `f`. -/
def mapModify {K V : Type} [DecidableEq K] (lt : K → K → Bool) (k : K) (dflt : V) (f : V → V)
    (m : List (K × V)) : List (K × V) :=
  if mapCount m k ≠ 0 then mapReplace k f m
  else insertSorted (fun a b => lt a.1 b.1) (k, f dflt) m

/-- The call `m.erase(k)` of `std::map`: the entry with key `k` is removed. -/
def mapErase {K V : Type} [DecidableEq K] (k : K) (m : List (K × V)) : List (K × V) :=
  m.filter (fun p => decide (p.1 ≠ k))

/-! ## The type `double`

The IEEE 754 binary64 numbers with the operations that the program uses:
conversion from integers, `+`, `*`, `/`, the comparisons and `log`.  Every
operation rounds the exact result to the nearest value of the format. -/

/-- The number of binary digits of `n`, counted with `fuel` steps at most. -/
def bitLengthAux : Nat → Nat → Nat
  | 0, _ => 0
  | fuel + 1, n => if n = 0 then 0 else bitLengthAux fuel (n / 2) + 1

/-- The number of binary digits of `n`: `2^(bitLength n - 1) ≤ n < 2^(bitLength n)`
for positive `n`. -/
def bitLength (n : Nat) : Nat := bitLengthAux n n

/-- A value of the type `double` (IEEE 754 binary64): a NaN, an infinity, or the
finite value `(-1)^negative * m * 2^e`.  The values that the operations below
return are in the form of the format: `2^52 ≤ m < 2^53` with
`-1074 ≤ e ≤ 971`, or `m < 2^52` with `e = -1074` (zeros and subnormals). -/
inductive F64 where
  | nan : F64
  | inf (negative : Bool) : F64
  | fin (negative : Bool) (m : Nat) (e : Int) : F64
deriving DecidableEq

namespace F64

/-- The integer part of the binary logarithm of `num / den`, for positive `num`
and `den`: the difference of the digit counts, or one less. -/
def floorLog2 (num den : Nat) : Int :=
  let k : Int := (bitLength num : Int) - (bitLength den : Int)
  if (if 0 ≤ k then den * 2 ^ k.toNat ≤ num else den ≤ num * 2 ^ (-k).toNat) then k else k - 1

/-- The value of the format nearest to `num / den` with the given sign, ties to
the even mantissa (the default rounding of IEEE 754); an infinity when the
rounded value is beyond the largest finite one.  `den` is positive. -/
def round (negative : Bool) (num den : Nat) : F64 :=
  if num = 0 then fin negative 0 (-1074)
  else
    let q : Int := max (floorLog2 num den - 52) (-1074)
    let a : Nat := if q < 0 then num * 2 ^ (-q).toNat else num
    let b : Nat := if q < 0 then den else den * 2 ^ q.toNat
    let m0 : Nat := a / b
    let r : Nat := a % b
    let m : Nat := if 2 * r > b ∨ (2 * r = b ∧ m0 % 2 = 1) then m0 + 1 else m0
    let q' : Int := if m = 2 ^ 53 then q + 1 else q
    let m' : Nat := if m = 2 ^ 53 then 2 ^ 52 else m
    if q' > 971 then inf negative else fin negative m' q'

/-- The finite value `(-1)^negative * m * 2^e` as an integer multiple of
`2^scale`, for `scale ≤ e`. -/
def scaled (negative : Bool) (m : Nat) (e scale : Int) : Int :=
  let a : Int := (m * 2 ^ (e - scale).toNat : Nat)
  if negative then -a else a

/-- The sum `x + y` of two `double`s. -/
def add : F64 → F64 → F64
  | nan, _ => nan
  | _, nan => nan
  | inf s, inf t => if s = t then inf s else nan
  | inf s, fin _ _ _ => inf s
  | fin _ _ _, inf t => inf t
  | fin s m e, fin t n f =>
    let scale : Int := min e f
    let sum : Int := scaled s m e scale + scaled t n f scale
    if sum = 0 then fin (s && t) 0 (-1074)
    else if 0 ≤ scale then round (decide (sum < 0)) (sum.natAbs * 2 ^ scale.toNat) 1
    else round (decide (sum < 0)) sum.natAbs (2 ^ (-scale).toNat)

/-- The product `x * y` of two `double`s. -/
def mul : F64 → F64 → F64
  | nan, _ => nan
  | _, nan => nan
  | inf s, inf t => inf (xor s t)
  | inf s, fin t n _ => if n = 0 then nan else inf (xor s t)
  | fin s m _, inf t => if m = 0 then nan else inf (xor s t)
  | fin s m e, fin t n f =>
    if 0 ≤ e + f then round (xor s t) (m * n * 2 ^ (e + f).toNat) 1
    else round (xor s t) (m * n) (2 ^ (-(e + f)).toNat)

/-- The quotient `x / y` of two `double`s. -/
def div : F64 → F64 → F64
  | nan, _ => nan
  | _, nan => nan
  | inf _, inf _ => nan
  | inf s, fin t _ _ => inf (xor s t)
  | fin s _ _, inf t => fin (xor s t) 0 (-1074)
  | fin s m e, fin t n f =>
    if n = 0 then (if m = 0 then nan else inf (xor s t))
    else round (xor s t) (m * 2 ^ (e - f).toNat) (n * 2 ^ (f - e).toNat)

/-- The comparison `x < y` of two `double`s; false when one of them is NaN. -/
def lt : F64 → F64 → Bool
  | nan, _ => false
  | _, nan => false
  | inf s, inf t => s && !t
  | inf s, fin _ _ _ => s
  | fin _ _ _, inf t => !t
  | fin s m e, fin t n f => decide (scaled s m e (min e f) < scaled t n f (min e f))

/-- The conversion of an unsigned integer to `double`. -/
def ofNat (n : Nat) : F64 := round false n 1

/-- The conversion of an `int` to `double`. -/
def ofInt (n : Int) : F64 := round (decide (n < 0)) n.natAbs 1

/-- The function `log` of the C library on its special arguments: NaN for a NaN
and for a negative argument, minus infinity for a zero, plus infinity for plus
infinity and zero for 1.  On the other positive arguments the value depends on
the library (it is the natural logarithm up to rounding) and is the parameter
`onPositive`. -/
def log (onPositive : F64 → F64) : F64 → F64
  | nan => nan
  | inf negative => if negative then nan else inf false
  | fin negative m e =>
    if m = 0 then inf true
    else if negative then nan
    else if fin negative m e = round false 1 1 then fin false 0 (-1074)
    else onPositive (fin negative m e)

end F64

instance : Zero F64 := ⟨F64.fin false 0 (-1074)⟩
instance : One F64 := ⟨F64.round false 1 1⟩
instance : Add F64 := ⟨F64.add⟩
instance : Mul F64 := ⟨F64.mul⟩
instance : Div F64 := ⟨F64.div⟩
instance : NatCast F64 := ⟨F64.ofNat⟩
instance : IntCast F64 := ⟨F64.ofInt⟩
instance : LT F64 := ⟨fun x y => F64.lt x y = true⟩
instance : DecidableRel (α := F64) (· < ·) := fun x y =>
  inferInstanceAs (Decidable (F64.lt x y = true))

/-- The comparison `x <= y` of two `double`s; false when one of them is NaN. -/
def F64.le : F64 → F64 → Bool
  | F64.nan, _ => false
  | _, F64.nan => false
  | F64.inf s, F64.inf t => s || !t
  | F64.inf s, F64.fin _ _ _ => s
  | F64.fin _ _ _, F64.inf t => !t
  | F64.fin s m e, F64.fin t n f =>
    decide (F64.scaled s m e (min e f) ≤ F64.scaled t n f (min e f))

instance : LE F64 := ⟨fun x y => F64.le x y = true⟩
instance : DecidableRel (α := F64) (· ≤ ·) := fun x y =>
  inferInstanceAs (Decidable (F64.le x y = true))

/-! ## The tokenizer -/

/-- One turn of the loop of `SplitIntoWords`: the state is the pair
`(words, word)` and `c` the character read. -/
def splitStep (st : List Str × Str) (c : Char) : List Str × Str :=
  if c = ' ' then
    if st.2 ≠ [] then (st.1 ++ [st.2], []) else st
  else (st.1, st.2 ++ [c])

/-- The function `SplitIntoWords`: the loop over the characters of `text`, then
the last word is pushed when it is not empty. -/
def SplitIntoWords (text : Str) : List Str :=
  let st := text.foldl splitStep ([], [])
  if st.2 ≠ [] then st.1 ++ [st.2] else st.1

/-! ## The search server -/

/-- The struct `Document`: an id and a relevance. -/
structure Document (R : Type) where
  id : Int
  relevance : R

/-- Two documents are equal when their ids and their relevances are. -/
instance {R : Type} [DecidableEq R] : DecidableEq (Document R) := fun a b =>
  decidable_of_iff (a.id = b.id ∧ a.relevance = b.relevance)
    (by cases a; cases b; simp)

/-- The constant `MAX_RESULT_DOCUMENT_COUNT`. -/
def MAX_RESULT_DOCUMENT_COUNT : Nat := 5

/-- The struct `Query`: the sets `plus` and `minus`. -/
structure Query where
  plus : List Str
  minus : List Str

/-- The data members of the class `SearchServer`. -/
structure SearchServer (R : Type) where
  document_count_ : Int
  word_to_document_freqs_ : List (Str × List (Int × R))
  stop_words_ : List Str

/-- A default-constructed `SearchServer`: count 0, empty containers. -/
def SearchServer.init (R : Type) : SearchServer R :=
  { document_count_ := 0, word_to_document_freqs_ := [], stop_words_ := [] }

section Operations

variable {R : Type} [Zero R] [One R] [Add R] [Mul R] [Div R] [NatCast R] [IntCast R] [LT R]
  [DecidableRel (α := R) (· < ·)]

/-- The method `SetDocumentCount`. -/
def SetDocumentCount (s : SearchServer R) (count : Int) : SearchServer R :=
  { s with document_count_ := count }

/-- The method `SetStopWords`: every word of `text` is inserted in the set. -/
def SetStopWords (s : SearchServer R) (text : Str) : SearchServer R :=
  { s with stop_words_ := (SplitIntoWords text).foldl (setInsert strLess) s.stop_words_ }

/-- The method `IsStopWord`. -/
def IsStopWord (s : SearchServer R) (word : Str) : Bool :=
  decide (setCount s.stop_words_ word > 0)

/-- The method `SplitIntoWordsNoStop`: the words of `text` that are not stop
words, in order. -/
def SplitIntoWordsNoStop (s : SearchServer R) (text : Str) : List Str :=
  (SplitIntoWords text).foldl
    (fun words word => if ¬ IsStopWord s word then words ++ [word] else words) []

/-- The method `CalculateTF`: `1.0 / words_in_document.size()`.  With no word
the C++ quotient is infinite and here it is 0; `AddDocument` uses the value
once for each word, so it is not used then. -/
def CalculateTF (words_in_document : List Str) : R :=
  1 / (words_in_document.length : R)

/-- The statement `word_to_document_freqs_[word][document_id] += tf`. -/
def addPosting (document_id : Int) (tf : R) (index : List (Str × List (Int × R)))
    (word : Str) : List (Str × List (Int × R)) :=
  mapModify strLess word [] (mapModify intLess document_id 0 (fun x => x + tf)) index

/-- The method `AddDocument`. -/
def AddDocument (s : SearchServer R) (document_id : Int) (document : Str) : SearchServer R :=
  let words_in_document := SplitIntoWordsNoStop s document
  let tf : R := CalculateTF words_in_document
  { s with word_to_document_freqs_ :=
      words_in_document.foldl (addPosting document_id tf) s.word_to_document_freqs_ }

/-- The body of the loop of `ParseQuery`.  `word[0]` of an empty word is the
terminating null character, which is not `'-'`, and `word.substr(1)` is only
evaluated after `word[0] == '-'`, on a word with a first character. -/
def parseStep (s : SearchServer R) (query_words : Query) (word : Str) : Query :=
  match word with
  | [] => { query_words with plus := setInsert strLess query_words.plus word }
  | c :: rest =>
    if c = '-' ∧ ¬ IsStopWord s rest then
      { query_words with minus := setInsert strLess query_words.minus rest }
    else
      { query_words with plus := setInsert strLess query_words.plus word }

/-- The method `ParseQuery`. -/
def ParseQuery (s : SearchServer R) (text : Str) : Query :=
  (SplitIntoWordsNoStop s text).foldl (parseStep s) { plus := [], minus := [] }

/-- The method `CalculateIDF`:
`log((double) document_count_ / word_to_document_freqs_.at(word).size())`. -/
def CalculateIDF (log : R → R) (s : SearchServer R) (word : Str) : Option R := do
  let freqs ← mapAt s.word_to_document_freqs_ word
  pure (log ((s.document_count_ : R) / (freqs.length : R)))

/-- The body of the first loop of `FindAllDocuments`, for one plus word. -/
def plusStep (log : R → R) (s : SearchServer R) (document_to_relevance : List (Int × R))
    (word : Str) : Option (List (Int × R)) :=
  if mapCount s.word_to_document_freqs_ word ≠ 0 then do
    let idf ← CalculateIDF log s word
    let freqs ← mapAt s.word_to_document_freqs_ word
    pure (freqs.foldl (fun acc p => mapModify intLess p.1 0 (fun x => x + idf * p.2) acc)
      document_to_relevance)
  else pure document_to_relevance

/-- The body of the second loop of `FindAllDocuments`, for one minus word. -/
def minusStep (s : SearchServer R) (document_to_relevance : List (Int × R))
    (word : Str) : Option (List (Int × R)) :=
  if mapCount s.word_to_document_freqs_ word ≠ 0 then do
    let freqs ← mapAt s.word_to_document_freqs_ word
    pure (freqs.foldl (fun acc p => mapErase p.1 acc) document_to_relevance)
  else pure document_to_relevance

/-- The method `FindAllDocuments`. -/
def FindAllDocuments (log : R → R) (s : SearchServer R) (query_words : Query) :
    Option (List (Document R)) := do
  let document_to_relevance ← query_words.plus.foldlM (plusStep log s) []
  let document_to_relevance ← query_words.minus.foldlM (minusStep s) document_to_relevance
  pure (document_to_relevance.map (fun p => { id := p.1, relevance := p.2 }))

/-- The comparator given to `std::sort`: `lhs.relevance > rhs.relevance`. -/
def byRelevance (lhs rhs : Document R) : Bool :=
  decide (lhs.relevance > rhs.relevance)

end Operations

/-- A comparator is a strict weak ordering, as `std::sort` requires. -/
def StrictWeakOrdering {α : Type} (comp : α → α → Bool) : Prop :=
  (∀ a, comp a a = false) ∧
  (∀ a b c, comp a b = true → comp b c = true → comp a c = true) ∧
  (∀ a b c, comp a b = false → comp b c = false → comp a c = false)

/-- The library function `std::sort` with its contract: for a strict weak
ordering `comp` the result is a rearrangement of the input in which no element
is ordered by `comp` before an element standing in front of it.  The order of
equivalent elements is left open. -/
structure StdSort (α : Type) where
  sort : (α → α → Bool) → List α → List α
  perm : ∀ comp l, StrictWeakOrdering comp → (sort comp l).Perm l
  sorted : ∀ comp l, StrictWeakOrdering comp →
    (sort comp l).Pairwise (fun a b => comp b a = false)

section Operations

variable {R : Type} [Zero R] [One R] [Add R] [Mul R] [Div R] [NatCast R] [IntCast R] [LT R]
  [DecidableRel (α := R) (· < ·)]

/-- The method `FindTopDocuments`. -/
def FindTopDocuments (S : StdSort (Document R)) (log : R → R) (s : SearchServer R)
    (raw_query : Str) : Option (List (Document R)) := do
  let query_words := ParseQuery s raw_query
  let matched_documents ← FindAllDocuments log s query_words
  let matched_documents := S.sort byRelevance matched_documents
  if matched_documents.length > MAX_RESULT_DOCUMENT_COUNT then
    pure (matched_documents.take MAX_RESULT_DOCUMENT_COUNT)
  else pure matched_documents

end Operations

/-! ## Vocabulary of the specification -/

/-- A text laid out from words and runs of spaces: `lead` spaces, then each word
followed by its gap.  The gap `g` after a word that is not the last one stands
for `g + 1` spaces, the gap after the last word for `g` spaces. -/
def spacedText : Nat → List (Str × Nat) → Str
  | lead, [] => List.replicate lead ' '
  | lead, [(w, gap)] => List.replicate lead ' ' ++ w ++ List.replicate gap ' '
  | lead, (w, gap) :: rest => List.replicate lead ' ' ++ w ++ ' ' :: spacedText gap rest

/-- The end of `SplitIntoWords`, after the loop has stopped in the state `st`. -/
def splitFinish (st : List Str × Str) : List Str :=
  if st.2 ≠ [] then st.1 ++ [st.2] else st.1

/-- Insertion sort by the order "`comp` does not put `b` before `a`": one
function that meets the contract of `std::sort` (it keeps equivalent elements
in their input order). -/
def insertionStdSort (α : Type) : StdSort α where
  sort comp l := l.insertionSort (fun a b => comp b a = false)
  perm comp l _ := List.perm_insertionSort _ l
  sorted comp l h := by
    haveI : IsTotal α (fun a b => comp b a = false) := ⟨fun a b => by
      by_cases hab : comp a b = true
      · left
        by_contra hba
        have := h.2.1 a b a hab (by simpa using hba)
        simp [h.1 a] at this
      · right; simpa using hab⟩
    haveI : IsTrans α (fun a b => comp b a = false) :=
      ⟨fun a b c hab hbc => h.2.2 c b a hbc hab⟩
    exact List.sorted_insertionSort _ l

/-! ## The function `std::sort` of libstdc++

The functions below follow `bits/stl_algo.h` of the GNU C++ library on a list
that stands for the range, with positions for iterators. -/

namespace Libstdcxx

variable {α : Type}

/-- The call `comp(*i, *j)` for two positions of the range. -/
def compAt (comp : α → α → Bool) (l : List α) (i j : Nat) : Bool :=
  match l[i]?, l[j]? with
  | some x, some y => comp x y
  | _, _ => false

/-- The call `std::iter_swap(i, j)`. -/
def swapAt (l : List α) (i j : Nat) : List α :=
  match l[i]?, l[j]? with
  | some x, some y => (l.set i y).set j x
  | _, _ => l

/-- The function `__move_median_to_first(result, a, b, c, comp)`. -/
def moveMedianToFirst (comp : α → α → Bool) (l : List α) (result a b c : Nat) : List α :=
  if compAt comp l a b then
    if compAt comp l b c then swapAt l result b
    else if compAt comp l a c then swapAt l result c
    else swapAt l result a
  else if compAt comp l a c then swapAt l result a
  else if compAt comp l b c then swapAt l result c
  else swapAt l result b

/-- The loop `while (comp(first, pivot)) ++first;`, with `fuel` turns at most. -/
def skipUp (comp : α → α → Bool) (l : List α) (pivot : Nat) : Nat → Nat → Nat
  | 0, first => first
  | fuel + 1, first =>
    if compAt comp l first pivot then skipUp comp l pivot fuel (first + 1) else first

/-- The loop `while (comp(pivot, last)) --last;`, with `fuel` turns at most. -/
def skipDown (comp : α → α → Bool) (l : List α) (pivot : Nat) : Nat → Nat → Nat
  | 0, last => last
  | fuel + 1, last =>
    if compAt comp l pivot last then skipDown comp l pivot fuel (last - 1) else last

/-- The function `__unguarded_partition(first, last, pivot, comp)`, with `fuel`
turns of its outer loop at most: the range after the swaps and the position
returned. -/
def unguardedPartition (comp : α → α → Bool) (pivot : Nat) :
    Nat → List α → Nat → Nat → List α × Nat
  | 0, l, first, _ => (l, first)
  | fuel + 1, l, first, last =>
    let first1 := skipUp comp l pivot l.length first
    let last1 := skipDown comp l pivot l.length (last - 1)
    if ¬ (first1 < last1) then (l, first1)
    else unguardedPartition comp pivot fuel (swapAt l first1 last1) (first1 + 1) last1

/-- The function `__introsort_loop(first, last, depth_limit, comp)`.  `none`
stands for the heap sort that the library runs when the depth limit is used up;
it is not modelled. -/
def introsortLoop (comp : α → α → Bool) : Nat → List α → Nat → Nat → Option (List α)
  | 0, l, first, last => if last - first > 16 then none else some l
  | depth_limit + 1, l, first, last =>
    if last - first > 16 then
      let mid := first + (last - first) / 2
      let l1 := moveMedianToFirst comp l first (first + 1) mid (last - 1)
      let cut := unguardedPartition comp first l.length l1 (first + 1) last
      match introsortLoop comp depth_limit cut.1 cut.2 last with
      | none => none
      | some l2 => introsortLoop comp depth_limit l2 first cut.2
    else some l

/-- The function `__unguarded_linear_insert(last, comp)`: the element at `last`
moves down while `comp` puts it before its neighbour, with `fuel` moves at
most. -/
def unguardedLinearInsert (comp : α → α → Bool) : Nat → List α → Nat → List α
  | 0, l, _ => l
  | fuel + 1, l, last =>
    if last = 0 then l
    else if compAt comp l last (last - 1) then
      unguardedLinearInsert comp fuel (swapAt l last (last - 1)) (last - 1)
    else l

/-- The two statements `std::move_backward(first, i, i + 1); *first = val;` of
`__insertion_sort`: the element at `i` is taken out and put at `first`. -/
def moveToFirst (l : List α) (first i : Nat) : List α :=
  match l[i]? with
  | some x => (l.eraseIdx i).insertIdx first x
  | none => l

/-- The function `__insertion_sort(first, last, comp)`. -/
def insertionSort (comp : α → α → Bool) (l : List α) (first last : Nat) : List α :=
  (List.range' (first + 1) (last - (first + 1))).foldl
    (fun l i =>
      if compAt comp l i first then moveToFirst l first i
      else unguardedLinearInsert comp l.length l i) l

/-- The function `__unguarded_insertion_sort(first, last, comp)`. -/
def unguardedInsertionSort (comp : α → α → Bool) (l : List α) (first last : Nat) : List α :=
  (List.range' first (last - first)).foldl
    (fun l i => unguardedLinearInsert comp l.length l i) l

/-- The function `__final_insertion_sort(first, last, comp)`. -/
def finalInsertionSort (comp : α → α → Bool) (l : List α) (first last : Nat) : List α :=
  if last - first > 16 then
    unguardedInsertionSort comp (insertionSort comp l first (first + 16)) (first + 16) last
  else insertionSort comp l first last

/-- The function `__lg(n)`: the integer part of the binary logarithm of `n`. -/
def lg (n : Nat) : Nat := bitLength n - 1

/-- The function `std::sort(first, last, comp)`: `__introsort_loop` with the
depth limit `2 * __lg(last - first)`, then `__final_insertion_sort`. -/
def sort (comp : α → α → Bool) (l : List α) : Option (List α) :=
  if l.length = 0 then some l
  else
    match introsortLoop comp (2 * lg l.length) l 0 l.length with
    | none => none
    | some l1 => some (finalInsertionSort comp l1 0 l.length)

end Libstdcxx

/-- The `std::sort` of libstdc++ as a library sort with its contract.  The
result of the algorithm is taken when it is a rearrangement of the input in
the order of `comp`, which is so for the library on every strict weak ordering;
otherwise, and where the algorithm is not modelled, insertion sort stands
in. -/
def libstdcxxStdSort (α : Type) [DecidableEq α] : StdSort α where
  sort comp l :=
    match Libstdcxx.sort comp l with
    | some r =>
      if r.Perm l ∧ r.Pairwise (fun a b => comp b a = false) then r
      else (insertionStdSort α).sort comp l
    | none => (insertionStdSort α).sort comp l
  perm comp l h := by
    dsimp only
    split
    · split
      · rename_i hr; exact hr.1
      · exact (insertionStdSort α).perm comp l h
    · exact (insertionStdSort α).perm comp l h
  sorted comp l h := by
    dsimp only
    split
    · split
      · rename_i hr; exact hr.2
      · exact (insertionStdSort α).sorted comp l h
    · exact (insertionStdSort α).sorted comp l h

/-- One call of a public method that changes the server. -/
inductive Call where
  | setStopWords (text : Str)
  | setDocumentCount (count : Int)
  | addDocument (document_id : Int) (document : Str)

section Vocabulary

variable {R : Type} [Zero R] [One R] [Add R] [Mul R] [Div R] [NatCast R] [IntCast R] [LT R]
  [DecidableRel (α := R) (· < ·)]

/-- The server after one call. -/
def Call.apply (s : SearchServer R) : Call → SearchServer R
  | .setStopWords text => SetStopWords s text
  | .setDocumentCount count => SetDocumentCount s count
  | .addDocument document_id document => AddDocument s document_id document

/-- The server reached from a default-constructed one by a sequence of calls. -/
def runCalls (R : Type) [Zero R] [One R] [Add R] [Div R] [NatCast R] (calls : List Call) :
    SearchServer R :=
  calls.foldl Call.apply (SearchServer.init R)

/-- The postings of a word: the map `document id -> tf` stored under it, empty
when the word is not a key of the index. -/
def postings (s : SearchServer R) (word : Str) : List (Int × R) :=
  (mapFind? s.word_to_document_freqs_ word).getD []

/-- The term frequency stored for a word and a document, if there is one. -/
def storedTf (s : SearchServer R) (word : Str) (document_id : Int) : Option R :=
  mapFind? (postings s word) document_id

/-- The document has a posting under the word. -/
def hasPosting (s : SearchServer R) (word : Str) (document_id : Int) : Bool :=
  (storedTf s word document_id).isSome

/-- The number of documents that have a posting under the word. -/
def documentFrequency (s : SearchServer R) (word : Str) : Nat :=
  ((postings s word).map Prod.fst).toFinset.card

/-- The invariant of `std::map` that the theorems on relevance use: no map
`document id -> tf` of the index holds a document id twice. -/
def PostingsNodup (s : SearchServer R) : Prop :=
  ∀ p ∈ s.word_to_document_freqs_, (p.2.map Prod.fst).Nodup

/-- The map `document_to_relevance` after the first loop of `FindAllDocuments`
has handled one plus word, with the lookups done. -/
def plusAcc (log : R → R) (s : SearchServer R) (acc : List (Int × R)) (word : Str) :
    List (Int × R) :=
  match mapFind? s.word_to_document_freqs_ word with
  | none => acc
  | some freqs =>
    freqs.foldl (fun a p => mapModify intLess p.1 0
      (fun x => x + log ((s.document_count_ : R) / (freqs.length : R)) * p.2) a) acc

/-- The map `document_to_relevance` after the second loop of `FindAllDocuments`
has handled one minus word, with the lookups done. -/
def minusAcc (s : SearchServer R) (acc : List (Int × R)) (word : Str) : List (Int × R) :=
  match mapFind? s.word_to_document_freqs_ word with
  | none => acc
  | some freqs => freqs.foldl (fun a p => mapErase p.1 a) acc

/-- What one plus word adds to the relevance of a document in the first loop of
`FindAllDocuments`: the sum of `idf * tf` over the entries of the word for the
document, where `idf` is computed as `CalculateIDF` does. -/
def contribution (log : R → R) (s : SearchServer R) (word : Str) (document_id : Int) : R :=
  (((postings s word).filter (fun p => decide (p.1 = document_id))).map
    (fun p => log ((s.document_count_ : R) / ((postings s word).length : R)) * p.2)).sum

/-- The map `document_to_relevance` at the end of the two loops of
`FindAllDocuments`, with the lookups done. -/
def relevanceMap (log : R → R) (s : SearchServer R) (query_words : Query) : List (Int × R) :=
  query_words.minus.foldl (minusAcc s) (query_words.plus.foldl (plusAcc log s) [])

/-- A server over the rationals: stop words `a an in on`, document count 2 and
two documents. -/
def exampleServer : SearchServer ℚ :=
  runCalls ℚ [.setStopWords "a an in on".toList, .setDocumentCount 2,
    .addDocument 0 "the cat sat on a mat".toList,
    .addDocument 1 "the dog barked in the yard".toList]

/-- A function on the rationals standing for the logarithm in examples. -/
def exampleLog (x : ℚ) : ℚ := x - 1

/-- The term frequency stored in an index for a word and a document. -/
def indexTf (index : List (Str × List (Int × R))) (word : Str) (document_id : Int) : Option R :=
  mapFind? ((mapFind? index word).getD []) document_id

/-- A server over the rationals with the stop words `a an in on` and no
document. -/
def stopWordsServer : SearchServer ℚ :=
  runCalls ℚ [.setStopWords "a an in on".toList]

/-- A server over the rationals with the stop word `in` and two documents, the
first of which holds the token `-in`. -/
def dashServer : SearchServer ℚ :=
  runCalls ℚ [.setStopWords "in".toList, .setDocumentCount 2,
    .addDocument 0 "-in stock".toList, .addDocument 1 "out of stock".toList]

/-- Two parsed queries with the same plus set and the same minus set up to the
empty word. -/
def sameUpToEmpty (q q' : Query) : Prop :=
  q'.plus = q.plus ∧
  q'.minus.filter (fun w => decide (w ≠ [])) = q.minus.filter (fun w => decide (w ≠ []))

/-- The document ids that stand in the posting maps of the index, with
repetitions. -/
def indexedIds (s : SearchServer R) : List Int :=
  (s.word_to_document_freqs_.map (fun p => p.2.map Prod.fst)).flatten

/-- Every term frequency stored in the index is positive. -/
def TfPositive (s : SearchServer R) : Prop :=
  ∀ p ∈ s.word_to_document_freqs_, ∀ e ∈ p.2, 0 < e.2

/-- The calls that build `exampleServer`. -/
def exampleCalls : List Call :=
  [.setStopWords "a an in on".toList, .setDocumentCount 2,
    .addDocument 0 "the cat sat on a mat".toList,
    .addDocument 1 "the dog barked in the yard".toList]

/-- The calls `SetDocumentCount(count)` and `AddDocument(i, text)` for
`i = 0, ..., n - 1`. -/
def sameTextCalls (count : Int) (n : Nat) (text : Str) : List Call :=
  Call.setDocumentCount count ::
    (List.range n).map (fun i => Call.addDocument (i : Int) text)

end Vocabulary

/-! ## Ordered containers: lemmas -/

theorem insertSorted_perm {α : Type} (lt : α → α → Bool) (x : α) (l : List α) :
    (insertSorted lt x l).Perm (x :: l) := by
  induction l with
  | nil => simp [insertSorted]
  | cons y ys ih =>
    unfold insertSorted
    split
    · exact List.Perm.refl _
    · exact (List.Perm.cons y ih).trans (List.Perm.swap x y ys)

theorem mem_insertSorted {α : Type} (lt : α → α → Bool) (x y : α) (l : List α) :
    y ∈ insertSorted lt x l ↔ y = x ∨ y ∈ l := by
  rw [(insertSorted_perm lt x l).mem_iff, List.mem_cons]

theorem mem_setInsert {α : Type} [DecidableEq α] (lt : α → α → Bool) (s : List α) (x y : α) :
    y ∈ setInsert lt s x ↔ y = x ∨ y ∈ s := by
  unfold setInsert
  split
  · constructor
    · exact Or.inr
    · rintro (h | h)
      · subst h; assumption
      · exact h
  · exact mem_insertSorted lt x y s

theorem nodup_setInsert {α : Type} [DecidableEq α] (lt : α → α → Bool) (s : List α) (x : α)
    (h : s.Nodup) : (setInsert lt s x).Nodup := by
  unfold setInsert
  split
  · exact h
  · rename_i hx
    exact (insertSorted_perm lt x s).nodup_iff.2 (List.nodup_cons.2 ⟨hx, h⟩)

theorem mem_foldl_setInsert {α : Type} [DecidableEq α] (lt : α → α → Bool) (xs : List α)
    (s : List α) (y : α) : y ∈ xs.foldl (setInsert lt) s ↔ y ∈ s ∨ y ∈ xs := by
  induction xs generalizing s with
  | nil => simp
  | cons x xs ih =>
    rw [List.foldl_cons, ih, mem_setInsert, List.mem_cons]
    tauto

/-! ## Maps: lemmas -/

section MapLemmas

variable {K V : Type} [DecidableEq K]

theorem mapFind?_isSome_iff (m : List (K × V)) (k : K) :
    (mapFind? m k).isSome = true ↔ k ∈ m.map Prod.fst := by
  induction m with
  | nil => simp [mapFind?]
  | cons p rest ih =>
    obtain ⟨k1, v1⟩ := p
    unfold mapFind?
    by_cases h : k1 = k
    · simp [h]
    · simp only [h, if_false, ih, List.map_cons, List.mem_cons]
      constructor
      · exact Or.inr
      · rintro (e | e)
        · exact absurd e.symm h
        · exact e

theorem mapFind?_eq_none_iff (m : List (K × V)) (k : K) :
    mapFind? m k = none ↔ k ∉ m.map Prod.fst := by
  rw [← mapFind?_isSome_iff]
  cases mapFind? m k <;> simp

theorem mapFind?_insertSorted (lt : K × V → K × V → Bool) (k : K) (v : V) (m : List (K × V))
    (h : mapFind? m k = none) (k' : K) :
    mapFind? (insertSorted lt (k, v) m) k' = if k' = k then some v else mapFind? m k' := by
  induction m with
  | nil =>
    by_cases e : k' = k
    · simp [insertSorted, mapFind?, e]
    · have e' : ¬ k = k' := fun x => e x.symm
      simp [insertSorted, mapFind?, e, e']
  | cons p rest ih =>
    obtain ⟨k1, v1⟩ := p
    have h1 : ¬ k1 = k := by
      intro e; simp [mapFind?, e] at h
    have h2 : mapFind? rest k = none := by
      simpa [mapFind?, h1] using h
    unfold insertSorted
    split
    · by_cases e : k' = k
      · simp [mapFind?, e]
      · have e' : ¬ k = k' := fun x => e x.symm
        simp [mapFind?, e, e']
    · by_cases e1 : k1 = k'
      · have : ¬ k' = k := fun x => h1 (e1.trans x)
        simp [mapFind?, e1, this]
      · simp only [mapFind?, e1, if_false]
        exact ih h2

theorem mapFind?_mapReplace (k : K) (f : V → V) (m : List (K × V)) (k' : K) :
    mapFind? (mapReplace k f m) k' = if k' = k then (mapFind? m k).map f else mapFind? m k' := by
  induction m with
  | nil => simp [mapReplace, mapFind?]
  | cons p rest ih =>
    obtain ⟨k1, v1⟩ := p
    unfold mapReplace
    by_cases h1 : k1 = k
    · subst h1
      by_cases e : k' = k1
      · subst e; simp [mapFind?]
      · have e' : ¬ k1 = k' := fun x => e x.symm
        simp [mapFind?, e, e']
    · simp only [h1, if_false]
      by_cases e1 : k1 = k'
      · have : ¬ k' = k := fun x => h1 (e1.trans x)
        simp [mapFind?, e1, this]
      · simp only [mapFind?, e1, h1, if_false]
        exact ih

/-- The lookups after `m[k] = f(m[k])`. -/
theorem mapFind?_mapModify (lt : K → K → Bool) (k : K) (dflt : V) (f : V → V)
    (m : List (K × V)) (k' : K) :
    mapFind? (mapModify lt k dflt f m) k'
      = if k' = k then some (f ((mapFind? m k).getD dflt)) else mapFind? m k' := by
  unfold mapModify mapCount
  cases hk : mapFind? m k with
  | none =>
    simp only [Option.isSome_none, Bool.false_eq_true, if_false, ne_eq, not_true_eq_false,
      Option.getD_none]
    exact mapFind?_insertSorted _ k (f dflt) m hk k'
  | some v =>
    simp only [Option.isSome_some, if_true, ne_eq, one_ne_zero, not_false_eq_true,
      Option.getD_some]
    rw [mapFind?_mapReplace, hk]
    rfl

theorem map_fst_mapReplace (k : K) (f : V → V) (m : List (K × V)) :
    (mapReplace k f m).map Prod.fst = m.map Prod.fst := by
  induction m with
  | nil => rfl
  | cons p rest ih =>
    obtain ⟨k1, v1⟩ := p
    unfold mapReplace
    split
    · rfl
    · simp [ih]

theorem mapErase_foldl (entries : List (K × V)) (acc : List (K × V)) :
    entries.foldl (fun a p => mapErase p.1 a) acc
      = acc.filter (fun q => decide (q.1 ∉ entries.map Prod.fst)) := by
  induction entries generalizing acc with
  | nil => simp
  | cons p rest ih =>
    rw [List.foldl_cons, ih, mapErase, List.filter_filter]
    congr 1
    funext q
    simp only [List.map_cons, List.mem_cons, not_or, Bool.decide_and, ne_eq]
    rw [Bool.and_comm]

theorem mapFind?_mem (m : List (K × V)) (k : K) (v : V) (h : mapFind? m k = some v) :
    (k, v) ∈ m := by
  induction m with
  | nil => simp [mapFind?] at h
  | cons p rest ih =>
    obtain ⟨k1, v1⟩ := p
    unfold mapFind? at h
    by_cases e : k1 = k
    · simp only [e, if_true, Option.some.injEq] at h
      simp [e, h]
    · simp only [e, if_false] at h
      exact List.mem_cons_of_mem _ (ih h)

theorem filter_key_of_nodup (m : List (K × V)) (k : K) (v : V)
    (hm : (m.map Prod.fst).Nodup) (h : mapFind? m k = some v) :
    m.filter (fun p => decide (p.1 = k)) = [(k, v)] := by
  induction m with
  | nil => simp [mapFind?] at h
  | cons p rest ih =>
    obtain ⟨k1, v1⟩ := p
    simp only [List.map_cons, List.nodup_cons] at hm
    unfold mapFind? at h
    by_cases e : k1 = k
    · simp only [e, if_true, Option.some.injEq] at h
      subst e; subst h
      have : rest.filter (fun p => decide (p.1 = k1)) = [] := by
        rw [List.filter_eq_nil_iff]
        intro q hq
        simp only [decide_eq_true_eq]
        intro hq1
        exact hm.1 (hq1 ▸ List.mem_map_of_mem Prod.fst hq)
      simp [List.filter_cons, this]
    · simp only [e, if_false] at h
      simp [List.filter_cons, e, ih hm.2 h]

theorem filter_key_of_none (m : List (K × V)) (k : K) (h : mapFind? m k = none) :
    m.filter (fun p => decide (p.1 = k)) = [] := by
  rw [List.filter_eq_nil_iff]
  intro q hq
  simp only [decide_eq_true_eq]
  intro hq1
  exact (mapFind?_eq_none_iff m k).1 h (hq1 ▸ List.mem_map_of_mem Prod.fst hq)

theorem mapFind?_of_mem_nodup (m : List (K × V)) (k : K) (v : V)
    (hm : (m.map Prod.fst).Nodup) (h : (k, v) ∈ m) : mapFind? m k = some v := by
  induction m with
  | nil => simp at h
  | cons p rest ih =>
    obtain ⟨k1, v1⟩ := p
    simp only [List.map_cons, List.nodup_cons] at hm
    unfold mapFind?
    rcases List.mem_cons.1 h with e | e
    · cases e
      simp
    · have : ¬ k1 = k := by
        intro e1
        exact hm.1 (e1 ▸ List.mem_map_of_mem Prod.fst e)
      simp only [this, if_false]
      exact ih hm.2 e

theorem mem_mapReplace (k : K) (f : V → V) (m : List (K × V)) (p : K × V)
    (h : p ∈ mapReplace k f m) : p ∈ m ∨ ∃ v, (k, v) ∈ m ∧ p = (k, f v) := by
  induction m with
  | nil => simp [mapReplace] at h
  | cons q rest ih =>
    obtain ⟨k1, v1⟩ := q
    unfold mapReplace at h
    by_cases e : k1 = k
    · simp only [e, if_true, List.mem_cons] at h
      rcases h with h | h
      · right; exact ⟨v1, by simp [e], h⟩
      · left; exact List.mem_cons_of_mem _ h
    · simp only [e, if_false, List.mem_cons] at h
      rcases h with h | h
      · left; simp [h]
      · rcases ih h with h' | ⟨v, hv, hp⟩
        · left; exact List.mem_cons_of_mem _ h'
        · right; exact ⟨v, List.mem_cons_of_mem _ hv, hp⟩

/-- The entries after `m[k] = f(m[k])`: the old ones, and the one under `k`. -/
theorem mem_mapModify (lt : K → K → Bool) (k : K) (dflt : V) (f : V → V) (m : List (K × V))
    (p : K × V) (h : p ∈ mapModify lt k dflt f m) :
    p ∈ m ∨ p = (k, f dflt) ∨ ∃ v, (k, v) ∈ m ∧ p = (k, f v) := by
  unfold mapModify at h
  split at h
  · rcases mem_mapReplace k f m p h with h' | h'
    · exact Or.inl h'
    · exact Or.inr (Or.inr h')
  · rcases (mem_insertSorted _ _ _ _).1 h with h' | h'
    · exact Or.inr (Or.inl h')
    · exact Or.inl h'

theorem nodup_keys_mapModify (lt : K → K → Bool) (k : K) (dflt : V) (f : V → V)
    (m : List (K × V)) (hm : (m.map Prod.fst).Nodup) :
    ((mapModify lt k dflt f m).map Prod.fst).Nodup := by
  unfold mapModify mapCount
  cases hk : mapFind? m k with
  | none =>
    simp only [Option.isSome_none, Bool.false_eq_true, if_false, ne_eq, not_true_eq_false]
    have hp := (insertSorted_perm (fun a b => lt a.1 b.1) (k, f dflt) m).map Prod.fst
    rw [hp.nodup_iff]
    exact List.nodup_cons.2 ⟨(mapFind?_eq_none_iff m k).1 hk, hm⟩
  | some v =>
    simp only [Option.isSome_some, if_true, ne_eq, one_ne_zero, not_false_eq_true]
    rw [map_fst_mapReplace]
    exact hm

end MapLemmas

/-- Strictly ascending keys stay so under `m[k] = f(m[k])` on `int` keys. -/
theorem pairwise_insertSorted_int {V : Type} (k : Int) (v : V) (m : List (Int × V))
    (hk : k ∉ m.map Prod.fst) (hm : (m.map Prod.fst).Pairwise (fun a b => a < b)) :
    ((insertSorted (fun a b => intLess a.1 b.1) (k, v) m).map Prod.fst).Pairwise
      (fun a b => a < b) := by
  induction m with
  | nil => simp [insertSorted]
  | cons p rest ih =>
    obtain ⟨k1, v1⟩ := p
    simp only [List.map_cons, List.mem_cons, not_or] at hk
    simp only [List.map_cons, List.pairwise_cons] at hm
    unfold insertSorted
    by_cases hlt : k < k1
    · simp only [intLess, hlt, decide_True, if_true, List.map_cons, List.pairwise_cons,
        List.mem_cons]
      refine ⟨?_, hm⟩
      rintro a (rfl | ha)
      · exact hlt
      · exact lt_trans hlt (hm.1 a ha)
    · simp only [intLess, hlt, decide_False, if_false, List.map_cons, List.pairwise_cons,
        Bool.false_eq_true]
      refine ⟨?_, ih hk.2 hm.2⟩
      intro a ha
      have ha' : a ∈ (k, v).1 :: rest.map Prod.fst :=
        ((insertSorted_perm _ (k, v) rest).map Prod.fst).mem_iff.1 ha
      rcases List.mem_cons.1 ha' with rfl | ha'
      · exact lt_of_le_of_ne (not_lt.1 hlt) (fun e => hk.1 e.symm)
      · exact hm.1 a ha'

theorem pairwise_mapModify_int {V : Type} (k : Int) (dflt : V) (f : V → V) (m : List (Int × V))
    (hm : (m.map Prod.fst).Pairwise (fun a b => a < b)) :
    ((mapModify intLess k dflt f m).map Prod.fst).Pairwise (fun a b => a < b) := by
  unfold mapModify mapCount
  cases hk : mapFind? m k with
  | none =>
    simp only [Option.isSome_none, Bool.false_eq_true, if_false, ne_eq, not_true_eq_false]
    exact pairwise_insertSorted_int k _ m ((mapFind?_eq_none_iff m k).1 hk) hm
  | some v =>
    simp only [Option.isSome_some, if_true, ne_eq, one_ne_zero, not_false_eq_true]
    rw [map_fst_mapReplace]
    exact hm

/-! ## The tokenizer: lemmas -/

theorem SplitIntoWords_eq (text : Str) :
    SplitIntoWords text = splitFinish (text.foldl splitStep ([], [])) := rfl

theorem foldl_splitStep_spaces (n : Nat) (ws : List Str) :
    (List.replicate n ' ').foldl splitStep (ws, []) = (ws, []) := by
  induction n with
  | zero => rfl
  | succ n ih => simpa [List.replicate_succ, splitStep] using ih

theorem foldl_splitStep_word (w' : Str) (h : ' ' ∉ w') (ws : List Str) (w : Str) :
    w'.foldl splitStep (ws, w) = (ws, w ++ w') := by
  induction w' generalizing w with
  | nil => simp
  | cons c cs ih =>
    have hc : c ≠ ' ' := fun e => h (by simp [e])
    have hcs : ' ' ∉ cs := fun e => h (by simp [e])
    simp [List.foldl_cons, splitStep, hc, ih hcs]

theorem splitStep_space (ws : List Str) (w : Str) (h : w ≠ []) :
    splitStep (ws, w) ' ' = (ws ++ [w], []) := by
  simp [splitStep, h]

/-- The loop run on a laid out text, started with the words `ws` pushed. -/
theorem splitFinish_spacedText (lead : Nat) (ps : List (Str × Nat))
    (h : ∀ p ∈ ps, p.1 ≠ [] ∧ ' ' ∉ p.1) (ws : List Str) :
    splitFinish ((spacedText lead ps).foldl splitStep (ws, [])) = ws ++ ps.map Prod.fst := by
  induction ps generalizing lead ws with
  | nil => simp [spacedText, foldl_splitStep_spaces, splitFinish]
  | cons p rest ih =>
    obtain ⟨w, gap⟩ := p
    have hw := h (w, gap) (by simp)
    have hrest : ∀ p ∈ rest, p.1 ≠ [] ∧ ' ' ∉ p.1 := fun p hp => h p (by simp [hp])
    cases rest with
    | nil =>
      simp [spacedText, List.foldl_append, foldl_splitStep_spaces,
        foldl_splitStep_word w hw.2]
      cases gap with
      | zero => simp [splitFinish, hw.1]
      | succ g =>
        simp [List.replicate_succ, splitStep_space _ _ hw.1, foldl_splitStep_spaces,
          splitFinish]
    | cons q rest =>
      simp only [spacedText, List.foldl_append, foldl_splitStep_spaces,
        foldl_splitStep_word w hw.2, List.foldl_cons, List.nil_append,
        splitStep_space _ _ hw.1]
      rw [ih gap hrest]
      simp

/-- What the loop keeps true: pushed words are non-empty and free of spaces,
and no character other than a space is lost. -/
theorem splitFinish_foldl (text : Str) (ws : List Str) (w : Str)
    (hws : ∀ x ∈ ws, x ≠ [] ∧ ' ' ∉ x) (hw : ' ' ∉ w) :
    (∀ x ∈ splitFinish (text.foldl splitStep (ws, w)), x ≠ [] ∧ ' ' ∉ x) ∧
    (splitFinish (text.foldl splitStep (ws, w))).flatten
      = ws.flatten ++ w ++ text.filter (fun c => decide (c ≠ ' ')) := by
  induction text generalizing ws w with
  | nil =>
    by_cases hne : w = []
    · simp [splitFinish, hne]; exact hws
    · simp [splitFinish, hne]
      intro x hx
      rcases hx with hx | hx
      · exact hws x hx
      · subst hx; exact ⟨hne, hw⟩
  | cons c cs ih =>
    by_cases hc : c = ' '
    · subst hc
      by_cases hne : w = []
      · subst hne
        have := ih ws [] hws hw
        simpa [splitStep] using this
      · have := ih (ws ++ [w]) [] (by
          intro x hx
          rcases List.mem_append.1 hx with hx | hx
          · exact hws x hx
          · simp at hx; subst hx; exact ⟨hne, hw⟩) (by simp)
        simpa [splitStep, hne] using this
    · have := ih ws (w ++ [c]) hws (by
        simp only [List.mem_append, List.mem_singleton, not_or]
        exact ⟨hw, fun e => hc e.symm⟩)
      simpa [splitStep, hc] using this

theorem SplitIntoWords_nonempty (text : Str) :
    ∀ w ∈ SplitIntoWords text, w ≠ [] ∧ ' ' ∉ w :=
  (splitFinish_foldl text [] [] (by simp) (by simp)).1

/-! ## `FindAllDocuments`: the two loops -/

section FindAll

variable {R : Type} [Zero R] [One R] [Add R] [Mul R] [Div R] [NatCast R] [IntCast R] [LT R]
  [DecidableRel (α := R) (· < ·)]

theorem foldlM_some {α β : Type} (f : β → α → β) (l : List α) (init : β) :
    l.foldlM (fun a x => (some (f a x) : Option β)) init = some (l.foldl f init) := by
  induction l generalizing init with
  | nil => rfl
  | cons x xs ih => simp [List.foldlM_cons, ih]

theorem plusStep_eq (log : R → R) (s : SearchServer R) (acc : List (Int × R)) (word : Str) :
    plusStep log s acc word = some (plusAcc log s acc word) := by
  unfold plusStep plusAcc CalculateIDF mapAt mapCount
  cases mapFind? s.word_to_document_freqs_ word <;> simp

theorem minusStep_eq (s : SearchServer R) (acc : List (Int × R)) (word : Str) :
    minusStep s acc word = some (minusAcc s acc word) := by
  unfold minusStep minusAcc mapAt mapCount
  cases mapFind? s.word_to_document_freqs_ word <;> simp

/-- `FindAllDocuments` throws no exception and returns the entries of the
relevance map in their order. -/
theorem FindAllDocuments_eq (log : R → R) (s : SearchServer R) (q : Query) :
    FindAllDocuments log s q
      = some ((relevanceMap log s q).map (fun p => { id := p.1, relevance := p.2 })) := by
  unfold FindAllDocuments relevanceMap
  have h1 : plusStep log s = fun a x => some (plusAcc log s a x) := by
    funext a x; exact plusStep_eq log s a x
  have h2 : minusStep s = fun a x => some (minusAcc s a x) := by
    funext a x; exact minusStep_eq s a x
  rw [h1, h2, foldlM_some]
  simp [foldlM_some]

theorem pairwise_foldl_add (c : R) (entries acc : List (Int × R))
    (h : (acc.map Prod.fst).Pairwise (fun a b => a < b)) :
    ((entries.foldl (fun a p => mapModify intLess p.1 0 (fun x => x + c * p.2) a) acc).map
      Prod.fst).Pairwise (fun a b => a < b) := by
  induction entries generalizing acc with
  | nil => exact h
  | cons p rest ih =>
    rw [List.foldl_cons]
    exact ih _ (pairwise_mapModify_int _ _ _ _ h)

theorem hasPosting_iff (s : SearchServer R) (word : Str) (d : Int) :
    hasPosting s word d = true ↔ d ∈ (postings s word).map Prod.fst := by
  unfold hasPosting storedTf
  exact mapFind?_isSome_iff _ _

theorem contribution_of_not_hasPosting (log : R → R) (s : SearchServer R) (word : Str)
    (d : Int) (h : hasPosting s word d = false) : contribution log s word d = 0 := by
  unfold contribution
  have : mapFind? (postings s word) d = none := by
    unfold hasPosting storedTf at h
    cases hm : mapFind? (postings s word) d with
    | none => rfl
    | some v => rw [hm] at h; simp at h
  rw [filter_key_of_none _ _ this]
  simp

theorem plusAcc_eq (log : R → R) (s : SearchServer R) (acc : List (Int × R)) (word : Str) :
    plusAcc log s acc word
      = (postings s word).foldl (fun a p => mapModify intLess p.1 0
          (fun x => x + log ((s.document_count_ : R) / ((postings s word).length : R)) * p.2) a)
          acc := by
  unfold plusAcc postings
  cases mapFind? s.word_to_document_freqs_ word <;> simp

theorem pairwise_plusAcc (log : R → R) (s : SearchServer R) (acc : List (Int × R)) (word : Str)
    (h : (acc.map Prod.fst).Pairwise (fun a b => a < b)) :
    ((plusAcc log s acc word).map Prod.fst).Pairwise (fun a b => a < b) := by
  rw [plusAcc_eq]
  exact pairwise_foldl_add _ _ _ h

theorem pairwise_foldl_plusAcc (log : R → R) (s : SearchServer R) (plus : List Str)
    (acc : List (Int × R)) (h : (acc.map Prod.fst).Pairwise (fun a b => a < b)) :
    ((plus.foldl (plusAcc log s) acc).map Prod.fst).Pairwise (fun a b => a < b) := by
  induction plus generalizing acc with
  | nil => exact h
  | cons p rest ih =>
    rw [List.foldl_cons]
    exact ih _ (pairwise_plusAcc log s acc p h)

theorem minusAcc_eq (s : SearchServer R) (acc : List (Int × R)) (word : Str) :
    minusAcc s acc word = acc.filter (fun q => !(hasPosting s word q.1)) := by
  unfold minusAcc
  have hfun : (fun q : Int × R => !(hasPosting s word q.1))
      = (fun q => decide (q.1 ∉ (postings s word).map Prod.fst)) := by
    funext q
    by_cases h : hasPosting s word q.1 = true
    · have := (hasPosting_iff s word q.1).1 h
      simp [h, this]
    · have h' : ¬ q.1 ∈ (postings s word).map Prod.fst := fun x => h ((hasPosting_iff s word q.1).2 x)
      simp only [Bool.not_eq_true] at h
      simp only [h, Bool.not_false]
      exact (decide_eq_true h').symm
  rw [hfun]
  unfold postings
  cases mapFind? s.word_to_document_freqs_ word with
  | none => simp
  | some freqs => simp only [Option.getD_some]; exact mapErase_foldl freqs acc

theorem foldl_minusAcc (s : SearchServer R) (minus : List Str) (acc : List (Int × R)) :
    minus.foldl (minusAcc s) acc
      = acc.filter (fun q => !(minus.any (fun t => hasPosting s t q.1))) := by
  induction minus generalizing acc with
  | nil => simp
  | cons t rest ih =>
    rw [List.foldl_cons, ih, minusAcc_eq, List.filter_filter]
    congr 1
    funext q
    simp only [List.any_cons, Bool.not_or]
    rw [Bool.and_comm]

end FindAll

section FindAllExact

variable {R : Type} [LinearOrderedField R]

theorem mapFind?_foldl_add (c : R) (entries acc : List (Int × R)) (d : Int) :
    mapFind? (entries.foldl (fun a p => mapModify intLess p.1 0 (fun x => x + c * p.2) a) acc) d
      = if d ∈ entries.map Prod.fst then
          some ((mapFind? acc d).getD 0
            + ((entries.filter (fun p => decide (p.1 = d))).map (fun p => c * p.2)).sum)
        else mapFind? acc d := by
  induction entries generalizing acc with
  | nil => simp
  | cons p rest ih =>
    obtain ⟨k, v⟩ := p
    rw [List.foldl_cons, ih, mapFind?_mapModify]
    by_cases hr : d ∈ rest.map Prod.fst
    · by_cases hk : d = k
      · subst hk
        simp [List.filter_cons, add_assoc, hr]
      · have hk' : ¬ k = d := fun e => hk e.symm
        simp [List.filter_cons, hk, hk', hr]
    · have hnil : rest.filter (fun p => decide (p.1 = d)) = [] :=
        filter_key_of_none rest d ((mapFind?_eq_none_iff rest d).2 hr)
      by_cases hk : d = k
      · subst hk
        simp [List.filter_cons, hr, hnil]
      · have hk' : ¬ k = d := fun e => hk e.symm
        simp [List.filter_cons, hk, hk', hr]

theorem mapFind?_plusAcc (log : R → R) (s : SearchServer R) (acc : List (Int × R))
    (word : Str) (d : Int) :
    mapFind? (plusAcc log s acc word) d
      = if hasPosting s word d = true then
          some ((mapFind? acc d).getD 0 + contribution log s word d)
        else mapFind? acc d := by
  rw [plusAcc_eq, mapFind?_foldl_add]
  simp only [hasPosting_iff]
  rfl

/-- The lookups in `document_to_relevance` after the loop over the plus words. -/
theorem mapFind?_foldl_plusAcc (log : R → R) (s : SearchServer R) (plus : List Str)
    (acc : List (Int × R)) (d : Int) :
    mapFind? (plus.foldl (plusAcc log s) acc) d
      = if plus.any (fun t => hasPosting s t d) = true then
          some ((mapFind? acc d).getD 0 + (plus.map (fun t => contribution log s t d)).sum)
        else mapFind? acc d := by
  induction plus generalizing acc with
  | nil => simp
  | cons t rest ih =>
    rw [List.foldl_cons, ih, mapFind?_plusAcc]
    cases hr : rest.any (fun t => hasPosting s t d) with
    | true =>
      cases ht : hasPosting s t d with
      | true => simp [add_assoc, hr, ht]
      | false => simp [contribution_of_not_hasPosting log s t d ht, hr, ht]
    | false =>
      have hsum : (rest.map (fun t => contribution log s t d)).sum = 0 := by
        apply List.sum_eq_zero
        intro x hx
        obtain ⟨t', ht', rfl⟩ := List.mem_map.1 hx
        apply contribution_of_not_hasPosting
        have := List.any_eq_false.1 hr t' ht'
        simpa using this
      cases ht : hasPosting s t d with
      | true => simp [hr, hsum, ht]
      | false => simp [hr, ht]

end FindAllExact

/-! ## `ParseQuery`: lemmas -/

section Parse

variable {R : Type} [Zero R] [One R] [Add R] [Mul R] [Div R] [NatCast R] [IntCast R] [LT R]
  [DecidableRel (α := R) (· < ·)]

theorem parseStep_nodup (s : SearchServer R) (q : Query) (word : Str)
    (h : q.plus.Nodup ∧ q.minus.Nodup) :
    (parseStep s q word).plus.Nodup ∧ (parseStep s q word).minus.Nodup := by
  unfold parseStep
  split
  · exact ⟨nodup_setInsert _ _ _ h.1, h.2⟩
  · split
    · exact ⟨h.1, nodup_setInsert _ _ _ h.2⟩
    · exact ⟨nodup_setInsert _ _ _ h.1, h.2⟩

theorem foldl_parseStep_nodup (s : SearchServer R) (words : List Str) (q : Query)
    (h : q.plus.Nodup ∧ q.minus.Nodup) :
    (words.foldl (parseStep s) q).plus.Nodup ∧ (words.foldl (parseStep s) q).minus.Nodup := by
  induction words generalizing q with
  | nil => exact h
  | cons w ws ih => exact ih _ (parseStep_nodup s q w h)

/-- The sets `plus` and `minus` of a parsed query hold no word twice. -/
theorem ParseQuery_nodup (s : SearchServer R) (text : Str) :
    (ParseQuery s text).plus.Nodup ∧ (ParseQuery s text).minus.Nodup :=
  foldl_parseStep_nodup s _ _ ⟨List.nodup_nil, List.nodup_nil⟩

end Parse

/-! ## The candidates of a query -/

section Candidates

variable {R : Type} [Zero R] [One R] [Add R] [Mul R] [Div R] [NatCast R] [IntCast R] [LT R]
  [DecidableRel (α := R) (· < ·)]

theorem postings_nodup (s : SearchServer R) (hs : PostingsNodup s) (word : Str) :
    ((postings s word).map Prod.fst).Nodup := by
  unfold postings
  cases h : mapFind? s.word_to_document_freqs_ word with
  | none => simp
  | some freqs => exact hs _ (mapFind?_mem _ _ _ h)

theorem documentFrequency_eq_length (s : SearchServer R) (hs : PostingsNodup s) (word : Str) :
    documentFrequency s word = (postings s word).length := by
  unfold documentFrequency
  rw [List.toFinset_card_of_nodup (postings_nodup s hs word), List.length_map]

theorem relevanceMap_eq (log : R → R) (s : SearchServer R) (q : Query) :
    relevanceMap log s q
      = (q.plus.foldl (plusAcc log s) []).filter
          (fun p => !(q.minus.any (fun t => hasPosting s t p.1))) := by
  unfold relevanceMap
  exact foldl_minusAcc s q.minus _

theorem relevanceMap_pairwise (log : R → R) (s : SearchServer R) (q : Query) :
    ((relevanceMap log s q).map Prod.fst).Pairwise (fun a b => a < b) := by
  rw [relevanceMap_eq]
  have h := pairwise_foldl_plusAcc log s q.plus [] (by simp)
  exact h.sublist ((List.filter_sublist _).map Prod.fst)

end Candidates

section CandidatesExact

variable {R : Type} [LinearOrderedField R]

/-- With no document id twice in a map of the index, the contribution of a word
to a document is `idf * tf` when the document has a posting under the word, and
nothing otherwise. -/
theorem contribution_eq (log : R → R) (s : SearchServer R) (hs : PostingsNodup s) (word : Str)
    (d : Int) :
    contribution log s word d
      = if hasPosting s word d = true then
          log ((s.document_count_ : R) / (documentFrequency s word : R))
            * (storedTf s word d).getD 0
        else 0 := by
  cases h : hasPosting s word d with
  | false => simp [contribution_of_not_hasPosting log s word d h]
  | true =>
    simp only [if_true]
    unfold hasPosting at h
    obtain ⟨tf, htf⟩ := Option.isSome_iff_exists.1 h
    unfold contribution
    rw [documentFrequency_eq_length s hs]
    unfold storedTf at htf
    rw [filter_key_of_nodup _ _ _ (postings_nodup s hs word) htf]
    simp [storedTf, htf]

/-- The entries of `document_to_relevance` at the end of `FindAllDocuments`. -/
theorem mem_relevanceMap (log : R → R) (s : SearchServer R) (q : Query) (d : Int) (r : R) :
    (d, r) ∈ relevanceMap log s q ↔
      (q.plus.any (fun t => hasPosting s t d) = true ∧
        q.minus.any (fun t => hasPosting s t d) = false) ∧
      r = (q.plus.map (fun t => contribution log s t d)).sum := by
  rw [relevanceMap_eq, List.mem_filter]
  have hpw := pairwise_foldl_plusAcc log s q.plus [] (by simp)
  have hnd : ((q.plus.foldl (plusAcc log s) []).map Prod.fst).Nodup :=
    hpw.imp (fun h => ne_of_lt h)
  have hfind := mapFind?_foldl_plusAcc log s q.plus [] d
  constructor
  · rintro ⟨hmem, hex⟩
    have h1 := mapFind?_of_mem_nodup _ _ _ hnd hmem
    rw [h1] at hfind
    cases hany : q.plus.any (fun t => hasPosting s t d) with
    | false => rw [hany] at hfind; simp [mapFind?] at hfind
    | true =>
      rw [hany] at hfind
      simp only [if_true, mapFind?, Option.getD_none, zero_add, Option.some.injEq] at hfind
      refine ⟨⟨rfl, ?_⟩, hfind⟩
      simpa using hex
  · rintro ⟨⟨hany, hex⟩, hr⟩
    rw [hany] at hfind
    simp only [if_true, mapFind?, Option.getD_none, zero_add] at hfind
    refine ⟨?_, by simp [hex]⟩
    rw [hr]
    exact mapFind?_mem _ _ _ hfind

end CandidatesExact

/-! ## `FindTopDocuments`: lemmas -/

section TopLemmas

variable {R : Type} [Zero R] [One R] [Add R] [Mul R] [Div R] [NatCast R] [IntCast R] [LT R]
  [DecidableRel (α := R) (· < ·)]

/-- `FindTopDocuments` throws no exception: it returns the first five entries
(all of them when there are fewer) of the sorted candidates. -/
theorem FindTopDocuments_eq (S : StdSort (Document R)) (log : R → R) (s : SearchServer R)
    (raw_query : Str) :
    ∃ cands, FindAllDocuments log s (ParseQuery s raw_query) = some cands ∧
      FindTopDocuments S log s raw_query
        = some ((S.sort byRelevance cands).take MAX_RESULT_DOCUMENT_COUNT) := by
  refine ⟨_, FindAllDocuments_eq log s _, ?_⟩
  unfold FindTopDocuments
  simp only [FindAllDocuments_eq, Option.bind_eq_bind, Option.some_bind, Option.pure_def]
  split
  · rfl
  · rename_i h
    rw [List.take_of_length_le (not_lt.1 h)]

theorem hasPosting_indexed (s : SearchServer R) (word : Str) (d : Int)
    (h : hasPosting s word d = true) :
    ∃ p ∈ s.word_to_document_freqs_, ∃ e ∈ p.2, e.1 = d := by
  rw [hasPosting_iff] at h
  unfold postings at h
  cases hf : mapFind? s.word_to_document_freqs_ word with
  | none => rw [hf] at h; simp at h
  | some freqs =>
    rw [hf] at h
    obtain ⟨e, he, hed⟩ := List.mem_map.1 h
    exact ⟨(word, freqs), mapFind?_mem _ _ _ hf, e, he, hed⟩

end TopLemmas

section TopLemmasExact

variable {R : Type} [LinearOrderedField R]

/-- The comparator of `FindTopDocuments` is a strict weak ordering. -/
theorem byRelevance_strictWeakOrdering : StrictWeakOrdering (byRelevance (R := R)) := by
  refine ⟨?_, ?_, ?_⟩
  · intro a; simp [byRelevance]
  · intro a b c hab hbc
    simp only [byRelevance, decide_eq_true_eq, gt_iff_lt] at *
    exact lt_trans hbc hab
  · intro a b c hab hbc
    simp only [byRelevance, decide_eq_false_iff_not, gt_iff_lt, not_lt] at *
    exact le_trans hab hbc

/-- The candidates of `FindAllDocuments`, by document id and relevance. -/
theorem mem_FindAllDocuments (log : R → R) (s : SearchServer R) (q : Query) :
    ∃ cands, FindAllDocuments log s q = some cands ∧
      (cands.map Document.id).Pairwise (fun a b => a < b) ∧
      ∀ doc, doc ∈ cands ↔
        (q.plus.any (fun t => hasPosting s t doc.id) = true ∧
          q.minus.any (fun t => hasPosting s t doc.id) = false) ∧
        doc.relevance = (q.plus.map (fun t => contribution log s t doc.id)).sum := by
  refine ⟨_, FindAllDocuments_eq log s q, ?_, ?_⟩
  · rw [List.map_map]
    exact relevanceMap_pairwise log s q
  · intro doc
    rw [← mem_relevanceMap, List.mem_map]
    constructor
    · rintro ⟨p, hp, rfl⟩
      exact hp
    · intro h
      exact ⟨(doc.id, doc.relevance), h, rfl⟩

/-- The result of `FindTopDocuments` is the front part of a rearrangement of the
candidates that is sorted by relevance, largest first. -/
theorem FindTopDocuments_take (S : StdSort (Document R)) (log : R → R) (s : SearchServer R)
    (raw_query : Str) :
    ∃ (cands sorted : List (Document R)), FindAllDocuments log s (ParseQuery s raw_query) = some cands ∧
      sorted.Perm cands ∧
      sorted.Pairwise (fun a b => a.relevance ≥ b.relevance) ∧
      FindTopDocuments S log s raw_query = some (sorted.take MAX_RESULT_DOCUMENT_COUNT) := by
  obtain ⟨cands, hc, htop⟩ := FindTopDocuments_eq S log s raw_query
  refine ⟨cands, S.sort byRelevance cands, hc, S.perm _ _ byRelevance_strictWeakOrdering, ?_,
    htop⟩
  refine (S.sorted byRelevance cands byRelevance_strictWeakOrdering).imp ?_
  intro a b h
  simpa [byRelevance] using h

/-- Every document returned by `FindTopDocuments` is a candidate. -/
theorem FindTopDocuments_subset (S : StdSort (Document R)) (log : R → R) (s : SearchServer R)
    (raw_query : Str) :
    ∃ (cands result : List (Document R)), FindAllDocuments log s (ParseQuery s raw_query) = some cands ∧
      FindTopDocuments S log s raw_query = some result ∧ ∀ doc ∈ result, doc ∈ cands := by
  obtain ⟨cands, sorted, hc, hperm, _, htop⟩ := FindTopDocuments_take S log s raw_query
  exact ⟨cands, _, hc, htop, fun doc hdoc => hperm.mem_iff.1 (List.mem_of_mem_take hdoc)⟩

end TopLemmasExact

/-! ## `AddDocument`: lemmas -/

section Indexing

variable {R : Type} [Zero R] [One R] [Add R] [Mul R] [Div R] [NatCast R] [IntCast R] [LT R]
  [DecidableRel (α := R) (· < ·)]

theorem storedTf_eq_indexTf (s : SearchServer R) (word : Str) (d : Int) :
    storedTf s word d = indexTf s.word_to_document_freqs_ word d := rfl

theorem SplitIntoWordsNoStop_eq_filter (s : SearchServer R) (text : Str) :
    SplitIntoWordsNoStop s text = (SplitIntoWords text).filter (fun w => !(IsStopWord s w)) := by
  unfold SplitIntoWordsNoStop
  have h : ∀ (ws acc : List Str),
      ws.foldl (fun words word => if ¬ IsStopWord s word = true then words ++ [word] else words)
        acc = acc ++ ws.filter (fun w => !(IsStopWord s w)) := by
    intro ws
    induction ws with
    | nil => intro acc; simp
    | cons w ws ih =>
      intro acc
      rw [List.foldl_cons, ih]
      cases hw : IsStopWord s w <;> simp [List.filter_cons, hw]
  simpa using h (SplitIntoWords text) []

/-- The stored term frequencies after `word_to_document_freqs_[w][id] += tf`. -/
theorem indexTf_addPosting (document_id : Int) (tf : R) (index : List (Str × List (Int × R)))
    (w word : Str) (d : Int) :
    indexTf (addPosting document_id tf index w) word d
      = if word = w ∧ d = document_id then some ((indexTf index word d).getD 0 + tf)
        else indexTf index word d := by
  unfold indexTf addPosting
  rw [mapFind?_mapModify]
  by_cases hw : word = w
  · subst hw
    simp only [if_true, Option.getD_some, true_and]
    rw [mapFind?_mapModify]
    by_cases hd : d = document_id
    · subst hd; simp
    · simp [hd]
  · simp [hw]

end Indexing

section IndexingExact

variable {R : Type} [LinearOrderedField R]

/-- The stored term frequencies after the loop of `AddDocument`: a word that
occurs `k` times has gained `k * tf` for the document added, and nothing else
has changed. -/
theorem indexTf_foldl_addPosting (document_id : Int) (tf : R) (words : List Str)
    (index : List (Str × List (Int × R))) (word : Str) (d : Int) :
    indexTf (words.foldl (addPosting document_id tf) index) word d
      = if d = document_id ∧ 1 ≤ words.count word then
          some ((indexTf index word d).getD 0 + (words.count word : R) * tf)
        else indexTf index word d := by
  induction words generalizing index with
  | nil => simp
  | cons w ws ih =>
    rw [List.foldl_cons, ih, indexTf_addPosting]
    by_cases hd : d = document_id
    · subst hd
      by_cases hw : word = w
      · subst hw
        simp only [and_self, if_true, Option.getD_some, List.count_cons_self, true_and,
          Nat.le_add_left, Nat.cast_add, Nat.cast_one]
        by_cases hc : 1 ≤ ws.count word
        · simp only [hc, if_true, Option.some.injEq]
          ring
        · have h0 : ws.count word = 0 := by omega
          simp [h0]
      · have hw' : ¬ w = word := fun e => hw e.symm
        simp [hw, List.count_cons, hw']
    · simp [hd]

end IndexingExact

/-! ## Servers reached by calls -/

section Reach

variable {R : Type} [Zero R] [One R] [Add R] [Mul R] [Div R] [NatCast R] [IntCast R] [LT R]
  [DecidableRel (α := R) (· < ·)]

theorem IsStopWord_iff (s : SearchServer R) (word : Str) :
    IsStopWord s word = true ↔ word ∈ s.stop_words_ := by
  unfold IsStopWord setCount
  by_cases h : word ∈ s.stop_words_ <;> simp [h]

theorem SplitIntoWordsNoStop_nonempty (s : SearchServer R) (text : Str) :
    ∀ w ∈ SplitIntoWordsNoStop s text, w ≠ [] := by
  intro w hw
  rw [SplitIntoWordsNoStop_eq_filter] at hw
  exact (SplitIntoWords_nonempty text w (List.mem_of_mem_filter hw)).1

theorem mapFind?_foldl_addPosting_nil (document_id : Int) (tf : R) (words : List Str)
    (index : List (Str × List (Int × R))) (hw : ∀ w ∈ words, w ≠ []) :
    mapFind? (words.foldl (addPosting document_id tf) index) []
      = mapFind? index [] := by
  induction words generalizing index with
  | nil => rfl
  | cons w ws ih =>
    rw [List.foldl_cons, ih _ (fun x hx => hw x (List.mem_cons_of_mem _ hx))]
    unfold addPosting
    rw [mapFind?_mapModify]
    have : ¬ ([] : Str) = w := fun e => hw w (List.mem_cons_self _ _) e.symm
    simp [this]

/-- What holds in every server reached by calls of the public methods: the
empty word is no stop word and no key of the index. -/
theorem runCalls_empty_word (calls : List Call) :
    [] ∉ (runCalls R calls).stop_words_ ∧
    mapFind? (runCalls R calls).word_to_document_freqs_ [] = none := by
  unfold runCalls
  have h : ∀ (cs : List Call) (s : SearchServer R),
      ([] ∉ s.stop_words_ ∧ mapFind? s.word_to_document_freqs_ [] = none) →
      ([] ∉ (cs.foldl Call.apply s).stop_words_ ∧
        mapFind? (cs.foldl Call.apply s).word_to_document_freqs_ [] = none) := by
    intro cs
    induction cs with
    | nil => intro s hs; exact hs
    | cons c cs ih =>
      intro s hs
      rw [List.foldl_cons]
      apply ih
      cases c with
      | setStopWords text =>
        refine ⟨?_, hs.2⟩
        show [] ∉ (SplitIntoWords text).foldl (setInsert strLess) s.stop_words_
        rw [mem_foldl_setInsert]
        rintro (h | h)
        · exact hs.1 h
        · exact (SplitIntoWords_nonempty text [] h).1 rfl
      | setDocumentCount count => exact hs
      | addDocument document_id document =>
        refine ⟨hs.1, ?_⟩
        show mapFind? ((SplitIntoWordsNoStop s document).foldl
          (addPosting document_id (CalculateTF (SplitIntoWordsNoStop s document)))
          s.word_to_document_freqs_) [] = none
        rw [mapFind?_foldl_addPosting_nil _ _ _ _ (SplitIntoWordsNoStop_nonempty s document)]
        exact hs.2
  exact h calls _ ⟨by simp [SearchServer.init], rfl⟩

theorem addPosting_postings_nodup (document_id : Int) (tf : R)
    (index : List (Str × List (Int × R))) (word : Str)
    (h : ∀ p ∈ index, (p.2.map Prod.fst).Nodup) :
    ∀ p ∈ addPosting document_id tf index word, (p.2.map Prod.fst).Nodup := by
  intro p hp
  unfold addPosting at hp
  rcases mem_mapModify _ _ _ _ _ _ hp with h1 | h1 | ⟨v, hv, h1⟩
  · exact h p h1
  · rw [h1]
    exact nodup_keys_mapModify intLess document_id 0 (fun x => x + tf) [] List.nodup_nil
  · rw [h1]
    exact nodup_keys_mapModify intLess document_id 0 (fun x => x + tf) v (h _ hv)

theorem AddDocument_postingsNodup (s : SearchServer R) (document_id : Int) (document : Str)
    (h : PostingsNodup s) : PostingsNodup (AddDocument s document_id document) := by
  have hfold : ∀ (words : List Str) (tf : R) (index : List (Str × List (Int × R))),
      (∀ p ∈ index, (p.2.map Prod.fst).Nodup) →
      ∀ p ∈ words.foldl (addPosting document_id tf) index, (p.2.map Prod.fst).Nodup := by
    intro words tf
    induction words with
    | nil => intro index hi; exact hi
    | cons w ws ih =>
      intro index hi
      rw [List.foldl_cons]
      exact ih _ (addPosting_postings_nodup document_id tf index w hi)
  exact hfold _ _ _ h

/-- Every server reached by calls of the public methods keeps the invariant
`PostingsNodup`. -/
theorem runCalls_postingsNodup (calls : List Call) : PostingsNodup (runCalls R calls) := by
  unfold runCalls
  have h : ∀ (cs : List Call) (s : SearchServer R), PostingsNodup s →
      PostingsNodup (cs.foldl Call.apply s) := by
    intro cs
    induction cs with
    | nil => intro s hs; exact hs
    | cons c cs ih =>
      intro s hs
      rw [List.foldl_cons]
      apply ih
      cases c with
      | setStopWords text => exact hs
      | setDocumentCount count => exact hs
      | addDocument document_id document => exact AddDocument_postingsNodup s _ _ hs
  exact h calls _ (by simp [PostingsNodup, SearchServer.init])

end Reach

/-! ## The empty minus word -/

section LoneMinus

variable {R : Type} [Zero R] [One R] [Add R] [Mul R] [Div R] [NatCast R] [IntCast R] [LT R]
  [DecidableRel (α := R) (· < ·)]

theorem strLess_nil (x : Str) : strLess x [] = false := by
  cases x <;> rfl

theorem insertSorted_cons {α : Type} (lt : α → α → Bool) (x y : α) (ys : List α) :
    insertSorted lt x (y :: ys)
      = if lt x y = true then x :: y :: ys else y :: insertSorted lt x ys := rfl

theorem filter_insertSorted_ne_nil (x : Str) (hx : x ≠ []) (m : List Str) :
    (insertSorted strLess x m).filter (fun w => decide (w ≠ []))
      = insertSorted strLess x (m.filter (fun w => decide (w ≠ []))) := by
  induction m with
  | nil => simp [insertSorted, hx]
  | cons y ys ih =>
    by_cases hy : y = []
    · subst hy
      rw [insertSorted_cons, strLess_nil]
      simp only [Bool.false_eq_true, if_false, ne_eq, not_true_eq_false,
        decide_False, List.filter_cons_of_neg, not_false_eq_true]
      exact ih
    · have hfy : (y :: ys).filter (fun w => decide (w ≠ []))
          = y :: ys.filter (fun w => decide (w ≠ [])) := by
        simp [List.filter_cons, hy]
      rw [hfy, insertSorted_cons, insertSorted_cons]
      by_cases hlt : strLess x y = true
      · simp only [hlt, if_true]
        simp [List.filter_cons, hx, hy]
      · simp only [hlt, if_false, Bool.false_eq_true]
        rw [← ih]
        simp [List.filter_cons, hy]

theorem filter_setInsert_ne_nil (x : Str) (hx : x ≠ []) (m : List Str) :
    (setInsert strLess m x).filter (fun w => decide (w ≠ []))
      = setInsert strLess (m.filter (fun w => decide (w ≠ []))) x := by
  unfold setInsert
  have hmem : x ∈ m.filter (fun w => decide (w ≠ [])) ↔ x ∈ m := by
    simp [List.mem_filter, hx]
  by_cases h : x ∈ m
  · simp only [h, if_true, hmem]
  · simp only [h, if_false, hmem]
    exact filter_insertSorted_ne_nil x hx m

theorem filter_setInsert_nil (m : List Str) :
    (setInsert strLess m []).filter (fun w => decide (w ≠ []))
      = m.filter (fun w => decide (w ≠ [])) := by
  unfold setInsert
  by_cases h : [] ∈ m
  · simp only [h, if_true]
  · simp only [h, if_false]
    have : ∀ (l : List Str), (insertSorted strLess [] l).filter (fun w => decide (w ≠ []))
        = l.filter (fun w => decide (w ≠ [])) := by
      intro l
      induction l with
      | nil => simp [insertSorted]
      | cons y ys ih =>
        rw [insertSorted_cons]
        split
        · simp
        · simp only [List.filter_cons, ih]
    exact this m

theorem parseStep_sameUpToEmpty (s : SearchServer R) (q q' : Query) (word : Str)
    (h : sameUpToEmpty q q') : sameUpToEmpty (parseStep s q word) (parseStep s q' word) := by
  unfold parseStep
  cases word with
  | nil => exact ⟨by simp [h.1], h.2⟩
  | cons c rest =>
    simp only
    split
    · refine ⟨h.1, ?_⟩
      by_cases hr : rest = []
      · subst hr
        simp only [filter_setInsert_nil]
        exact h.2
      · simp only [filter_setInsert_ne_nil rest hr, h.2]
    · exact ⟨by simp [h.1], h.2⟩

theorem foldl_parseStep_sameUpToEmpty (s : SearchServer R) (words : List Str) (q q' : Query)
    (h : sameUpToEmpty q q') :
    sameUpToEmpty (words.foldl (parseStep s) q) (words.foldl (parseStep s) q') := by
  induction words generalizing q q' with
  | nil => exact h
  | cons w ws ih => exact ih _ _ (parseStep_sameUpToEmpty s q q' w h)

theorem any_filter_ne_nil (f : Str → Bool) (hf : f [] = false) (l : List Str) :
    (l.filter (fun w => decide (w ≠ []))).any f = l.any f := by
  induction l with
  | nil => rfl
  | cons y ys ih =>
    by_cases hy : y = []
    · subst hy
      rw [List.filter_cons_of_neg (by simp), ih, List.any_cons, hf, Bool.false_or]
    · rw [List.filter_cons_of_pos (by simpa using hy), List.any_cons, ih, List.any_cons]

/-- The relevance map does not depend on the empty word being a minus word,
when the empty word is no key of the index. -/
theorem relevanceMap_sameUpToEmpty (log : R → R) (s : SearchServer R) (q q' : Query)
    (hidx : mapFind? s.word_to_document_freqs_ [] = none) (h : sameUpToEmpty q q') :
    relevanceMap log s q' = relevanceMap log s q := by
  have hno : ∀ d, hasPosting s [] d = false := by
    intro d
    unfold hasPosting storedTf postings
    rw [hidx]
    rfl
  rw [relevanceMap_eq, relevanceMap_eq, h.1]
  congr 1
  funext p
  rw [← any_filter_ne_nil _ (hno p.1) q'.minus, ← any_filter_ne_nil _ (hno p.1) q.minus, h.2]

end LoneMinus

/-! ## Texts and queries of stop words -/

section StopOnly

variable {R : Type} [Zero R] [One R] [Add R] [Mul R] [Div R] [NatCast R] [IntCast R] [LT R]
  [DecidableRel (α := R) (· < ·)]

theorem SplitIntoWordsNoStop_eq_nil (s : SearchServer R) (text : Str)
    (h : ∀ w ∈ SplitIntoWords text, IsStopWord s w = true) :
    SplitIntoWordsNoStop s text = [] := by
  rw [SplitIntoWordsNoStop_eq_filter, List.filter_eq_nil_iff]
  intro w hw
  simp [h w hw]

theorem StdSort.sort_nil {α : Type} (S : StdSort α) (comp : α → α → Bool)
    (h : StrictWeakOrdering comp) : S.sort comp [] = [] :=
  List.Perm.eq_nil (S.perm comp [] h)

/-- A document id that stands in no posting list has no posting under any
word. -/
theorem hasPosting_of_not_indexed (s : SearchServer R) (d : Int)
    (h : ∀ p ∈ s.word_to_document_freqs_, ∀ e ∈ p.2, e.1 ≠ d) (word : Str) :
    hasPosting s word d = false := by
  cases hp : hasPosting s word d with
  | false => rfl
  | true =>
    obtain ⟨p, hp1, e, he, hed⟩ := hasPosting_indexed s word d hp
    exact absurd hed (h p hp1 e he)

end StopOnly

/-! ## `AddDocument`: the postings after the call -/

section Indexing2

variable {R : Type} [Zero R] [One R] [Add R] [Mul R] [Div R] [NatCast R] [IntCast R] [LT R]
  [DecidableRel (α := R) (· < ·)]

end Indexing2

section Indexing2Exact

variable {R : Type} [LinearOrderedField R]

/-- The stored term frequencies after `AddDocument`: a word that occurs `k`
times among the words of the text that are not stop words has gained `k * tf`
for the document added; nothing else has changed. -/
theorem storedTf_AddDocument (s : SearchServer R) (document_id : Int) (document : Str)
    (word : Str) (d : Int) :
    storedTf (AddDocument s document_id document) word d
      = if d = document_id ∧ 1 ≤ (SplitIntoWordsNoStop s document).count word then
          some ((storedTf s word d).getD 0
            + ((SplitIntoWordsNoStop s document).count word : R)
              * CalculateTF (SplitIntoWordsNoStop s document))
        else storedTf s word d := by
  rw [storedTf_eq_indexTf, storedTf_eq_indexTf]
  unfold AddDocument
  simp only
  rw [indexTf_foldl_addPosting]

end Indexing2Exact

/-! ## The plus and minus words as sets -/

section QuerySets

variable {R : Type} [Zero R] [One R] [Add R] [Mul R] [Div R] [NatCast R] [IntCast R] [LT R]
  [DecidableRel (α := R) (· < ·)]

theorem mem_parseStep (s : SearchServer R) (q : Query) (word : Str) (x : Str) :
    (x ∈ (parseStep s q word).plus ↔
      x ∈ q.plus ∨ x ∈ (parseStep s { plus := [], minus := [] } word).plus) ∧
    (x ∈ (parseStep s q word).minus ↔
      x ∈ q.minus ∨ x ∈ (parseStep s { plus := [], minus := [] } word).minus) := by
  unfold parseStep
  cases word with
  | nil => simp [mem_setInsert]; tauto
  | cons c rest =>
    simp only
    split
    · simp [mem_setInsert]; tauto
    · simp [mem_setInsert]; tauto

/-- The plus and minus sets of a parsed list of words: a word is in a set
exactly when one of the words parsed puts it there. -/
theorem mem_foldl_parseStep (s : SearchServer R) (words : List Str) (q : Query) (x : Str) :
    (x ∈ (words.foldl (parseStep s) q).plus ↔
      x ∈ q.plus ∨ ∃ w ∈ words, x ∈ (parseStep s { plus := [], minus := [] } w).plus) ∧
    (x ∈ (words.foldl (parseStep s) q).minus ↔
      x ∈ q.minus ∨ ∃ w ∈ words, x ∈ (parseStep s { plus := [], minus := [] } w).minus) := by
  induction words generalizing q with
  | nil => simp
  | cons w ws ih =>
    rw [List.foldl_cons]
    obtain ⟨h1, h2⟩ := ih (parseStep s q w)
    obtain ⟨h3, h4⟩ := mem_parseStep s q w x
    rw [h1, h2, h3, h4]
    simp only [List.mem_cons, exists_eq_or_imp]
    exact ⟨by rw [or_assoc], by rw [or_assoc]⟩

/-- Two queries with the same words have the same plus words and the same
minus words. -/
theorem mem_ParseQuery_congr (s : SearchServer R) (raw_query raw_query' : Str)
    (h : ∀ w, w ∈ SplitIntoWords raw_query ↔ w ∈ SplitIntoWords raw_query') (x : Str) :
    (x ∈ (ParseQuery s raw_query).plus ↔ x ∈ (ParseQuery s raw_query').plus) ∧
    (x ∈ (ParseQuery s raw_query).minus ↔ x ∈ (ParseQuery s raw_query').minus) := by
  unfold ParseQuery
  have hw : ∀ w, w ∈ SplitIntoWordsNoStop s raw_query ↔ w ∈ SplitIntoWordsNoStop s raw_query' := by
    intro w
    rw [SplitIntoWordsNoStop_eq_filter, SplitIntoWordsNoStop_eq_filter, List.mem_filter,
      List.mem_filter, h w]
  obtain ⟨h1, h2⟩ := mem_foldl_parseStep s (SplitIntoWordsNoStop s raw_query)
    { plus := [], minus := [] } x
  obtain ⟨h3, h4⟩ := mem_foldl_parseStep s (SplitIntoWordsNoStop s raw_query')
    { plus := [], minus := [] } x
  rw [h1, h2, h3, h4]
  simp [hw]

/-- Two maps with strictly ascending keys and the same entries are equal. -/
theorem eq_of_pairwise_keys {V : Type} (l l' : List (Int × V))
    (hl : (l.map Prod.fst).Pairwise (fun a b => a < b))
    (hl' : (l'.map Prod.fst).Pairwise (fun a b => a < b))
    (h : ∀ p, p ∈ l ↔ p ∈ l') : l = l' := by
  have hs : l.Pairwise (fun a b => a.1 < b.1) := List.pairwise_map.1 hl
  have hs' : l'.Pairwise (fun a b => a.1 < b.1) := List.pairwise_map.1 hl'
  haveI : IsAntisymm (Int × V) (fun a b => a.1 < b.1) :=
    ⟨fun a b h1 h2 => absurd h1 (lt_asymm h2)⟩
  have hperm : l.Perm l' :=
    (List.perm_ext_iff_of_nodup (hs.imp (fun h e => by rw [e] at h; exact lt_irrefl _ h))
      (hs'.imp (fun h e => by rw [e] at h; exact lt_irrefl _ h))).2 h
  exact List.eq_of_perm_of_sorted hperm hs hs'

end QuerySets

section QuerySetsExact

variable {R : Type} [LinearOrderedField R]

/-- The relevance map of a query depends on the plus words and the minus words as
sets only. -/
theorem relevanceMap_congr (log : R → R) (s : SearchServer R) (q q' : Query)
    (hq : q.plus.Nodup) (hq' : q'.plus.Nodup)
    (hplus : ∀ x, x ∈ q.plus ↔ x ∈ q'.plus) (hminus : ∀ x, x ∈ q.minus ↔ x ∈ q'.minus) :
    relevanceMap log s q = relevanceMap log s q' := by
  apply eq_of_pairwise_keys _ _ (relevanceMap_pairwise log s q) (relevanceMap_pairwise log s q')
  rintro ⟨d, r⟩
  rw [mem_relevanceMap, mem_relevanceMap]
  have hperm : q.plus.Perm q'.plus := (List.perm_ext_iff_of_nodup hq hq').2 hplus
  have hsum : (q.plus.map (fun t => contribution log s t d)).sum
      = (q'.plus.map (fun t => contribution log s t d)).sum := (hperm.map _).sum_eq
  have hany : q.plus.any (fun t => hasPosting s t d) = q'.plus.any (fun t => hasPosting s t d) := by
    rw [Bool.eq_iff_iff]
    simp only [List.any_eq_true]
    constructor
    · rintro ⟨t, ht, h⟩; exact ⟨t, (hplus t).1 ht, h⟩
    · rintro ⟨t, ht, h⟩; exact ⟨t, (hplus t).2 ht, h⟩
  have hany' : q.minus.any (fun t => hasPosting s t d)
      = q'.minus.any (fun t => hasPosting s t d) := by
    rw [Bool.eq_iff_iff]
    simp only [List.any_eq_true]
    constructor
    · rintro ⟨t, ht, h⟩; exact ⟨t, (hminus t).1 ht, h⟩
    · rintro ⟨t, ht, h⟩; exact ⟨t, (hminus t).2 ht, h⟩
  rw [hsum, hany, hany']

end QuerySetsExact

/-! ## Positive term frequencies -/

section Positive

variable {R : Type} [Zero R] [One R] [Add R] [Mul R] [Div R] [NatCast R] [IntCast R] [LT R]
  [DecidableRel (α := R) (· < ·)]

theorem postings_mem_index (s : SearchServer R) (word : Str) (e : Int × R)
    (he : e ∈ postings s word) : ∃ p ∈ s.word_to_document_freqs_, e ∈ p.2 := by
  unfold postings at he
  cases hf : mapFind? s.word_to_document_freqs_ word with
  | none => rw [hf] at he; simp at he
  | some freqs =>
    rw [hf] at he
    exact ⟨(word, freqs), mapFind?_mem _ _ _ hf, he⟩

/-- No word has more documents with a posting than there are document ids in
the index. -/
theorem documentFrequency_le (s : SearchServer R) (word : Str) :
    documentFrequency s word ≤ (indexedIds s).toFinset.card := by
  unfold documentFrequency
  apply Finset.card_le_card
  intro d hd
  rw [List.mem_toFinset] at hd ⊢
  obtain ⟨e, he, hed⟩ := List.mem_map.1 hd
  obtain ⟨p, hp, hep⟩ := postings_mem_index s word e he
  unfold indexedIds
  rw [List.mem_flatten]
  exact ⟨p.2.map Prod.fst, List.mem_map_of_mem _ hp, hed ▸ List.mem_map_of_mem Prod.fst hep⟩

theorem documentFrequency_pos (s : SearchServer R) (word : Str) (d : Int)
    (h : hasPosting s word d = true) : 0 < documentFrequency s word := by
  unfold documentFrequency
  apply Finset.card_pos.2
  exact ⟨d, List.mem_toFinset.2 ((hasPosting_iff s word d).1 h)⟩

theorem storedTf_mem_postings (s : SearchServer R) (word : Str) (d : Int) (tf : R)
    (h : storedTf s word d = some tf) : (d, tf) ∈ postings s word :=
  mapFind?_mem _ _ _ h

end Positive

section PositiveExact

variable {R : Type} [LinearOrderedField R]

theorem addPosting_tf_pos (document_id : Int) (tf : R) (htf : 0 < tf)
    (index : List (Str × List (Int × R))) (word : Str)
    (h : ∀ p ∈ index, ∀ e ∈ p.2, 0 < e.2) :
    ∀ p ∈ addPosting document_id tf index word, ∀ e ∈ p.2, 0 < e.2 := by
  have hinner : ∀ (v : List (Int × R)), (∀ e ∈ v, 0 < e.2) →
      ∀ e ∈ mapModify intLess document_id 0 (fun x => x + tf) v, 0 < e.2 := by
    intro v hv e he
    rcases mem_mapModify _ _ _ _ _ _ he with h1 | h1 | ⟨x, hx, h1⟩
    · exact hv e h1
    · rw [h1]; simpa using htf
    · rw [h1]; exact add_pos (hv _ hx) htf
  intro p hp
  unfold addPosting at hp
  rcases mem_mapModify _ _ _ _ _ _ hp with h1 | h1 | ⟨v, hv, h1⟩
  · exact h p h1
  · rw [h1]; exact hinner [] (by simp)
  · rw [h1]; exact hinner v (h _ hv)

theorem AddDocument_tfPositive (s : SearchServer R) (document_id : Int) (document : Str)
    (h : TfPositive s) : TfPositive (AddDocument s document_id document) := by
  have hfold : ∀ (words : List Str) (tf : R) (index : List (Str × List (Int × R))),
      (words ≠ [] → 0 < tf) → (∀ p ∈ index, ∀ e ∈ p.2, 0 < e.2) →
      ∀ p ∈ words.foldl (addPosting document_id tf) index, ∀ e ∈ p.2, 0 < e.2 := by
    intro words tf
    induction words with
    | nil => intro index _ hi; exact hi
    | cons w ws ih =>
      intro index htf hi
      rw [List.foldl_cons]
      have hpos : 0 < tf := htf (by simp)
      exact ih _ (fun _ => hpos) (addPosting_tf_pos document_id tf hpos index w hi)
  apply hfold _ _ _ _ h
  intro hne
  unfold CalculateTF
  apply one_div_pos.2
  rw [Nat.cast_pos]
  exact List.length_pos.2 hne

/-- Every server reached by calls of the public methods stores positive term
frequencies only. -/
theorem runCalls_tfPositive (calls : List Call) : TfPositive (runCalls R calls) := by
  unfold runCalls
  have h : ∀ (cs : List Call) (s : SearchServer R), TfPositive s →
      TfPositive (cs.foldl Call.apply s) := by
    intro cs
    induction cs with
    | nil => intro s hs; exact hs
    | cons c cs ih =>
      intro s hs
      rw [List.foldl_cons]
      apply ih
      cases c with
      | setStopWords text => exact hs
      | setDocumentCount count => exact hs
      | addDocument document_id document => exact AddDocument_tfPositive s _ _ hs
  exact h calls _ (by simp [TfPositive, SearchServer.init])

/-- With positive term frequencies, a document count that is at least the
number of document ids in the index and a function `log` that is not negative
from 1 on, no word takes away from the relevance of a document. -/
theorem contribution_nonneg (log : R → R) (hlog : ∀ x : R, 1 ≤ x → 0 ≤ log x)
    (s : SearchServer R) (hs : PostingsNodup s) (hpos : TfPositive s)
    (hcount : ((indexedIds s).toFinset.card : Int) ≤ s.document_count_)
    (word : Str) (d : Int) : 0 ≤ contribution log s word d := by
  rw [contribution_eq log s hs]
  split
  · rename_i hp
    apply mul_nonneg
    · apply hlog
      have hdf : (0 : R) < (documentFrequency s word : R) :=
        Nat.cast_pos.2 (documentFrequency_pos s word d hp)
      rw [one_le_div hdf]
      have h1 : (documentFrequency s word : Int) ≤ s.document_count_ :=
        le_trans (Int.ofNat_le.2 (documentFrequency_le s word)) hcount
      have h2 : ((documentFrequency s word : Int) : R) ≤ (s.document_count_ : R) :=
        Int.cast_le.2 h1
      simpa using h2
    · unfold hasPosting at hp
      obtain ⟨tf, htf⟩ := Option.isSome_iff_exists.1 hp
      rw [htf]
      obtain ⟨p, hp1, hp2⟩ := postings_mem_index s word _ (storedTf_mem_postings s word d tf htf)
      exact le_of_lt (hpos p hp1 _ hp2)
  · exact le_refl 0

end PositiveExact

/-! ## The library sort on a list in order -/

section SortLemmas

/-- A rearrangement of a list that is strictly in the order of `comp`, in which
no element is put by `comp` before an element in front of it, is the list
itself. -/
theorem eq_of_perm_of_strictly_sorted {α : Type} (comp : α → α → Bool) (l l' : List α)
    (hperm : l'.Perm l) (hl : l.Pairwise (fun a b => comp a b = true))
    (hl' : l'.Pairwise (fun a b => comp b a = false)) : l' = l := by
  induction l generalizing l' with
  | nil => exact List.Perm.eq_nil hperm
  | cons a t ih =>
    cases l' with
    | nil => exact absurd hperm.symm.eq_nil (by simp)
    | cons x t' =>
      have hxa : x = a := by
        by_contra hne
        have hx : x ∈ t := by
          have : x ∈ a :: t := hperm.mem_iff.1 (List.mem_cons_self _ _)
          rcases List.mem_cons.1 this with h | h
          · exact absurd h hne
          · exact h
        have ha : a ∈ t' := by
          have : a ∈ x :: t' := hperm.mem_iff.2 (List.mem_cons_self _ _)
          rcases List.mem_cons.1 this with h | h
          · exact absurd h.symm hne
          · exact h
        have h1 := (List.pairwise_cons.1 hl).1 x hx
        have h2 := (List.pairwise_cons.1 hl').1 a ha
        rw [h1] at h2
        exact Bool.noConfusion h2
      subst hxa
      rw [ih t' (List.Perm.cons_inv hperm) (List.pairwise_cons.1 hl).2
        (List.pairwise_cons.1 hl').2]

/-- The library sort leaves a list that is strictly in order as it is. -/
theorem StdSort.sort_eq_self {α : Type} (S : StdSort α) (comp : α → α → Bool)
    (h : StrictWeakOrdering comp) (l : List α)
    (hl : l.Pairwise (fun a b => comp a b = true)) : S.sort comp l = l :=
  eq_of_perm_of_strictly_sorted comp l _ (S.perm comp l h) hl (S.sorted comp l h)

end SortLemmas

/-! ## The scenario of two documents -/

section Scenario

theorem scenario_tf_cat : storedTf (runCalls ℝ exampleCalls) "cat".toList 0 = some (1 / 4) := by
  have hs : runCalls ℝ exampleCalls
      = AddDocument (AddDocument (SetDocumentCount (SetStopWords (SearchServer.init ℝ)
          "a an in on".toList) 2) 0 "the cat sat on a mat".toList) 1
          "the dog barked in the yard".toList := rfl
  rw [hs, storedTf_AddDocument, if_neg (by decide), storedTf_AddDocument,
    if_pos ⟨rfl, by decide⟩]
  have hnone : storedTf (SetDocumentCount (SetStopWords (SearchServer.init ℝ)
      "a an in on".toList) 2) "cat".toList 0 = none := rfl
  have hcount : (SplitIntoWordsNoStop (SetDocumentCount (SetStopWords (SearchServer.init ℝ)
      "a an in on".toList) 2) "the cat sat on a mat".toList).count "cat".toList = 1 := by
    decide
  have hlen : (SplitIntoWordsNoStop (SetDocumentCount (SetStopWords (SearchServer.init ℝ)
      "a an in on".toList) 2) "the cat sat on a mat".toList).length = 4 := by
    decide
  rw [hnone, hcount, CalculateTF, hlen]
  norm_num

theorem scenario_tf_dog : storedTf (runCalls ℝ exampleCalls) "dog".toList 1 = some (1 / 5) := by
  have hs : runCalls ℝ exampleCalls
      = AddDocument (AddDocument (SetDocumentCount (SetStopWords (SearchServer.init ℝ)
          "a an in on".toList) 2) 0 "the cat sat on a mat".toList) 1
          "the dog barked in the yard".toList := rfl
  rw [hs, storedTf_AddDocument, if_pos ⟨rfl, by decide⟩, storedTf_AddDocument,
    if_neg (by decide)]
  have hnone : storedTf (SetDocumentCount (SetStopWords (SearchServer.init ℝ)
      "a an in on".toList) 2) "dog".toList 1 = none := rfl
  have hcount : (SplitIntoWordsNoStop (AddDocument (SetDocumentCount (SetStopWords
      (SearchServer.init ℝ) "a an in on".toList) 2) 0 "the cat sat on a mat".toList)
      "the dog barked in the yard".toList).count "dog".toList = 1 := by
    decide
  have hlen : (SplitIntoWordsNoStop (AddDocument (SetDocumentCount (SetStopWords
      (SearchServer.init ℝ) "a an in on".toList) 2) 0 "the cat sat on a mat".toList)
      "the dog barked in the yard".toList).length = 5 := by
    decide
  rw [hnone, hcount, CalculateTF, hlen]
  norm_num

/-- The candidates of the query `cat dog` in the scenario. -/
theorem scenario_candidates :
    FindAllDocuments Real.log (runCalls ℝ exampleCalls)
        (ParseQuery (runCalls ℝ exampleCalls) "cat dog".toList)
      = some [{ id := 0, relevance := Real.log 2 / 4 }, { id := 1, relevance := Real.log 2 / 5 }] := by
  rw [FindAllDocuments_eq]
  have hkeys : (relevanceMap Real.log (runCalls ℝ exampleCalls)
      (ParseQuery (runCalls ℝ exampleCalls) "cat dog".toList)).map Prod.fst = [0, 1] := by
    decide
  have hplus : (ParseQuery (runCalls ℝ exampleCalls) "cat dog".toList).plus
      = ["cat".toList, "dog".toList] := by decide
  have hnd := runCalls_postingsNodup (R := ℝ) exampleCalls
  have hN : ((runCalls ℝ exampleCalls).document_count_ : ℝ) = 2 := by
    have : (runCalls ℝ exampleCalls).document_count_ = 2 := by decide
    rw [this]; norm_num
  have hdf1 : documentFrequency (runCalls ℝ exampleCalls) "cat".toList = 1 := by decide
  have hdf2 : documentFrequency (runCalls ℝ exampleCalls) "dog".toList = 1 := by decide
  have h00 : hasPosting (runCalls ℝ exampleCalls) "cat".toList 0 = true := by decide
  have h01 : hasPosting (runCalls ℝ exampleCalls) "dog".toList 0 = false := by decide
  have h10 : hasPosting (runCalls ℝ exampleCalls) "cat".toList 1 = false := by decide
  have h11 : hasPosting (runCalls ℝ exampleCalls) "dog".toList 1 = true := by decide
  have hval : ∀ d r, (d, r) ∈ relevanceMap Real.log (runCalls ℝ exampleCalls)
      (ParseQuery (runCalls ℝ exampleCalls) "cat dog".toList) →
      r = contribution Real.log (runCalls ℝ exampleCalls) "cat".toList d
        + contribution Real.log (runCalls ℝ exampleCalls) "dog".toList d := by
    intro d r h
    rw [((mem_relevanceMap _ _ _ _ _).1 h).2, hplus]
    simp
  generalize hm : relevanceMap Real.log (runCalls ℝ exampleCalls)
      (ParseQuery (runCalls ℝ exampleCalls) "cat dog".toList) = m at hkeys hval
  match m, hkeys, hval with
  | [(d0, r0), (d1, r1)], hkeys, hval =>
    simp only [List.map_cons, List.map_nil, List.cons.injEq, and_true] at hkeys
    obtain ⟨rfl, rfl⟩ := hkeys
    have e0 := hval 0 r0 (by simp)
    have e1 := hval 1 r1 (by simp)
    rw [contribution_eq _ _ hnd, contribution_eq _ _ hnd, h00, h01, hN, hdf1,
      scenario_tf_cat] at e0
    rw [contribution_eq _ _ hnd, contribution_eq _ _ hnd, h10, h11, hN, hdf2,
      scenario_tf_dog] at e1
    simp only [if_true, Bool.false_eq_true, if_false, Option.getD_some, add_zero, zero_add,
      Nat.cast_one, div_one] at e0 e1
    rw [e0, e1]
    simp only [List.map_cons, List.map_nil, Option.some.injEq, List.cons.injEq,
      Document.mk.injEq, true_and, and_true]
    constructor <;> ring

end Scenario

/-! ## Sorts that keep the input order of ties -/

section Stable

end Stable

/-! ## The claims -/

section Claims

variable {R : Type} [LinearOrderedField R]

/-- C1: `FindAllDocuments` returns exactly one pair for each document that has
a posting under at least one plus term and under no minus term of the parsed
query (the ids of the result are pairwise different, and an id is in the result
exactly under that condition), and the relevance of a returned document is the
sum, over the plus terms with a posting for it, of
`log (N / number of documents with a posting under the term) * tf`. -/
theorem FindAllDocuments_candidates (log : R → R) (s : SearchServer R) (raw_query : Str)
    (hs : PostingsNodup s) :
    ∃ result, FindAllDocuments log s (ParseQuery s raw_query) = some result ∧
      (result.map Document.id).Nodup ∧
      (∀ d, d ∈ result.map Document.id ↔
        (∃ t ∈ (ParseQuery s raw_query).plus, hasPosting s t d = true) ∧
        ¬ ∃ t ∈ (ParseQuery s raw_query).minus, hasPosting s t d = true) ∧
      (∀ doc ∈ result, doc.relevance =
        ((ParseQuery s raw_query).plus.toFinset.filter
          (fun t => hasPosting s t doc.id = true)).sum
          (fun t => log ((s.document_count_ : R) / (documentFrequency s t : R))
            * (storedTf s t doc.id).getD 0)) := by
  obtain ⟨cands, hc, hpw, hmem⟩ := mem_FindAllDocuments log s (ParseQuery s raw_query)
  refine ⟨cands, hc, hpw.imp (fun h => ne_of_lt h), ?_, ?_⟩
  · intro d
    simp only [List.mem_map]
    constructor
    · rintro ⟨doc, hdoc, rfl⟩
      have := ((hmem doc).1 hdoc).1
      refine ⟨by simpa using this.1, ?_⟩
      have h2 := this.2
      simpa using h2
    · rintro ⟨hp, hm⟩
      refine ⟨⟨d, ((ParseQuery s raw_query).plus.map (fun t => contribution log s t d)).sum⟩,
        ?_, rfl⟩
      rw [hmem]
      refine ⟨⟨by simpa using hp, ?_⟩, rfl⟩
      simpa using hm
  · intro doc hdoc
    rw [((hmem doc).1 hdoc).2, ← List.sum_toFinset _ (ParseQuery_nodup s raw_query).1,
      Finset.sum_filter]
    apply Finset.sum_congr rfl
    intro t _
    exact contribution_eq log s hs t doc.id

/-- C1 at a concrete server and the query `cat the -dog`. -/
theorem FindAllDocuments_candidates_witness :
    PostingsNodup exampleServer ∧
    ∃ result, FindAllDocuments exampleLog exampleServer
        (ParseQuery exampleServer "cat the -dog".toList) = some result ∧
      (result.map Document.id).Nodup :=
  ⟨by unfold PostingsNodup; decide,
    match FindAllDocuments_candidates exampleLog exampleServer "cat the -dog".toList
      (by unfold PostingsNodup; decide) with
    | ⟨result, h1, h2, _⟩ => ⟨result, h1, h2⟩⟩

/-- C2: a document with a posting under a minus term of the parsed query is not
in the result of `FindTopDocuments`, whatever the plus terms; and when every
document of the index has a posting under the minus term the result is empty. -/
theorem FindTopDocuments_minus_excluded (S : StdSort (Document R)) (log : R → R)
    (s : SearchServer R) (raw_query : Str) (t : Str)
    (ht : t ∈ (ParseQuery s raw_query).minus) :
    ∃ result, FindTopDocuments S log s raw_query = some result ∧
      (∀ doc ∈ result, hasPosting s t doc.id = false) ∧
      ((∀ p ∈ s.word_to_document_freqs_, ∀ e ∈ p.2, hasPosting s t e.1 = true) →
        result = []) := by
  obtain ⟨cands, result, hc, hr, hsub⟩ := FindTopDocuments_subset S log s raw_query
  obtain ⟨cands', hc', _, hmem⟩ := mem_FindAllDocuments log s (ParseQuery s raw_query)
  rw [hc] at hc'
  cases hc'
  have hexcl : ∀ doc ∈ result, hasPosting s t doc.id = false := by
    intro doc hdoc
    have h := ((hmem doc).1 (hsub doc hdoc)).1.2
    have := List.any_eq_false.1 h t ht
    simpa using this
  refine ⟨result, hr, hexcl, ?_⟩
  intro hall
  apply List.eq_nil_iff_forall_not_mem.2
  intro doc hdoc
  have h := ((hmem doc).1 (hsub doc hdoc)).1.1
  obtain ⟨t', _, ht'⟩ := List.any_eq_true.1 h
  obtain ⟨p, hp, e, he, hed⟩ := hasPosting_indexed s t' doc.id ht'
  have h1 := hall p hp e he
  rw [hed, hexcl doc hdoc] at h1
  exact Bool.false_ne_true h1

/-- C2 at a concrete server: every document holds `the`, the query `cat -the`
has no result. -/
theorem FindTopDocuments_minus_excluded_witness :
    "the".toList ∈ (ParseQuery exampleServer "cat -the".toList).minus ∧
    (∀ p ∈ exampleServer.word_to_document_freqs_, ∀ e ∈ p.2,
      hasPosting exampleServer "the".toList e.1 = true) ∧
    FindTopDocuments (insertionStdSort (Document ℚ)) exampleLog exampleServer
      "cat -the".toList = some [] :=
  ⟨by decide, by decide,
    match FindTopDocuments_minus_excluded (insertionStdSort (Document ℚ)) exampleLog
      exampleServer "cat -the".toList "the".toList (by decide) with
    | ⟨_, h1, _, h3⟩ => (h3 (by decide)) ▸ h1⟩

/-- C3: every document in the result of `FindTopDocuments` has a posting under
at least one plus term of the parsed query. -/
theorem FindTopDocuments_plus_matched (S : StdSort (Document R)) (log : R → R)
    (s : SearchServer R) (raw_query : Str) :
    ∃ result, FindTopDocuments S log s raw_query = some result ∧
      ∀ doc ∈ result, ∃ t ∈ (ParseQuery s raw_query).plus, hasPosting s t doc.id = true := by
  obtain ⟨cands, result, hc, hr, hsub⟩ := FindTopDocuments_subset S log s raw_query
  obtain ⟨cands', hc', _, hmem⟩ := mem_FindAllDocuments log s (ParseQuery s raw_query)
  rw [hc] at hc'
  cases hc'
  refine ⟨result, hr, ?_⟩
  intro doc hdoc
  exact List.any_eq_true.1 ((hmem doc).1 (hsub doc hdoc)).1.1

/-- C4: the result of `FindTopDocuments` has at most 5 entries, the value of
`MAX_RESULT_DOCUMENT_COUNT`. -/
theorem FindTopDocuments_length_le (S : StdSort (Document R)) (log : R → R)
    (s : SearchServer R) (raw_query : Str) :
    ∃ result, FindTopDocuments S log s raw_query = some result ∧ result.length ≤ 5 := by
  obtain ⟨cands, _, htop⟩ := FindTopDocuments_eq S log s raw_query
  exact ⟨_, htop, List.length_take_le _ _⟩

/-- C5 as the specification has it fails in `double` arithmetic: after
`SetDocumentCount(-2)` and six documents `cat`, the query `cat` gives five
results whose relevances are NaN, and `NaN >= NaN` is false. -/
theorem FindTopDocuments_nan_not_sorted :
    ∃ result, FindTopDocuments (libstdcxxStdSort (Document F64)) (F64.log id)
        (runCalls F64 (sameTextCalls (-2) 6 "cat".toList)) "cat".toList = some result ∧
      result = [⟨0, F64.nan⟩, ⟨1, F64.nan⟩, ⟨2, F64.nan⟩, ⟨3, F64.nan⟩, ⟨4, F64.nan⟩] ∧
      ¬ result.Chain' (fun a b => a.relevance ≥ b.relevance) :=
  ⟨_, by decide!, rfl, fun h => absurd (List.chain'_cons.1 h).1 (by decide!)⟩

/-- C6 as the specification has it fails in `double` arithmetic: after
`SetDocumentCount(-2)` and six documents `cat`, the query `cat` has six
candidates with the relevance NaN; five are returned, and the relevance of a
returned one is not greater than or equal to that of the one left out. -/
theorem FindTopDocuments_nan_not_top_five :
    ∃ (cands result : List (Document F64)),
      FindAllDocuments (F64.log id) (runCalls F64 (sameTextCalls (-2) 6 "cat".toList))
        (ParseQuery (runCalls F64 (sameTextCalls (-2) 6 "cat".toList)) "cat".toList)
        = some cands ∧
      FindTopDocuments (libstdcxxStdSort (Document F64)) (F64.log id)
        (runCalls F64 (sameTextCalls (-2) 6 "cat".toList)) "cat".toList = some result ∧
      cands = [⟨0, F64.nan⟩, ⟨1, F64.nan⟩, ⟨2, F64.nan⟩, ⟨3, F64.nan⟩, ⟨4, F64.nan⟩,
        ⟨5, F64.nan⟩] ∧
      result = [⟨0, F64.nan⟩, ⟨1, F64.nan⟩, ⟨2, F64.nan⟩, ⟨3, F64.nan⟩, ⟨4, F64.nan⟩] ∧
      ¬ (∀ a ∈ result, ∀ b ∈ cands, b ∉ result → a.relevance ≥ b.relevance) :=
  ⟨_, _, by decide!, by decide!, rfl, rfl, by decide!⟩

/-- C7: after `AddDocument(id, text)` a term that occurs `k >= 1` times among
the `L` words of the text that are not stop words has the stored term frequency
`k / L` for `id`, when `id` had no posting under the term before the call (as
for an id that was not added before). -/
theorem AddDocument_tf (s : SearchServer R) (document_id : Int) (document : Str) (word : Str)
    (hnew : hasPosting s word document_id = false)
    (hk : 1 ≤ (SplitIntoWordsNoStop s document).count word) :
    storedTf (AddDocument s document_id document) word document_id
      = some (((SplitIntoWordsNoStop s document).count word : R)
          / ((SplitIntoWordsNoStop s document).length : R)) := by
  have hnone : indexTf s.word_to_document_freqs_ word document_id = none := by
    unfold hasPosting at hnew
    rw [storedTf_eq_indexTf] at hnew
    cases h : indexTf s.word_to_document_freqs_ word document_id with
    | none => rfl
    | some v => rw [h] at hnew; simp at hnew
  rw [storedTf_eq_indexTf]
  unfold AddDocument
  simp only
  rw [indexTf_foldl_addPosting, hnone]
  simp only [hk, and_self, if_true, Option.getD_none, zero_add, CalculateTF, Option.some.injEq]
  rw [mul_one_div]

/-- C7 at a concrete call: `the` occurs twice among the three words of
`the cat in the` that are not stop words. -/
theorem AddDocument_tf_witness :
    hasPosting stopWordsServer "the".toList 7 = false ∧
    1 ≤ (SplitIntoWordsNoStop stopWordsServer "the cat in the".toList).count "the".toList ∧
    (SplitIntoWordsNoStop stopWordsServer "the cat in the".toList).count "the".toList = 2 ∧
    (SplitIntoWordsNoStop stopWordsServer "the cat in the".toList).length = 3 ∧
    storedTf (AddDocument stopWordsServer 7 "the cat in the".toList) "the".toList 7
      = some (((SplitIntoWordsNoStop stopWordsServer "the cat in the".toList).count
          "the".toList : ℚ)
          / ((SplitIntoWordsNoStop stopWordsServer "the cat in the".toList).length : ℚ)) :=
  ⟨by decide, by decide, by decide, by decide,
    AddDocument_tf stopWordsServer 7 "the cat in the".toList "the".toList (by decide)
      (by decide)⟩

/-- C8: `SplitIntoWords` yields the maximal runs of characters other than the
space, in order.  Every token is non-empty and has no space; the tokens
concatenated are the text without its spaces, characters unchanged; a text of
spaces only (the empty text too) has no token; and a text laid out from
non-empty space-free words with any number of spaces before, between (at least
one) and after them is split into exactly those words. -/
theorem SplitIntoWords_maximal_runs (text : Str) :
    (∀ w ∈ SplitIntoWords text, w ≠ [] ∧ ' ' ∉ w) ∧
    (SplitIntoWords text).flatten = text.filter (fun c => decide (c ≠ ' ')) ∧
    ((∀ c ∈ text, c = ' ') → SplitIntoWords text = []) ∧
    (∀ (lead : Nat) (ps : List (Str × Nat)), (∀ p ∈ ps, p.1 ≠ [] ∧ ' ' ∉ p.1) →
      SplitIntoWords (spacedText lead ps) = ps.map Prod.fst) := by
  have h := splitFinish_foldl text [] [] (by simp) (by simp)
  refine ⟨h.1, by simpa [SplitIntoWords_eq] using h.2, ?_, ?_⟩
  · intro hsp
    have hflat : (SplitIntoWords text).flatten = [] := by
      rw [SplitIntoWords_eq, h.2]
      simp only [List.flatten_nil, List.append_nil, List.nil_append, List.filter_eq_nil_iff]
      intro c hc
      simp [hsp c hc]
    cases hw : SplitIntoWords text with
    | nil => rfl
    | cons w ws =>
      exfalso
      have hne := (h.1 w (by rw [← SplitIntoWords_eq, hw]; simp)).1
      rw [hw] at hflat
      simp at hflat
      exact hne hflat.1
  · intro lead ps hps
    rw [SplitIntoWords_eq, splitFinish_spacedText lead ps hps []]
    simp

/-- C8 at a concrete text: two leading spaces, three spaces between the words
and one trailing space. -/
theorem SplitIntoWords_maximal_runs_witness :
    SplitIntoWords "  the   Cat ".toList = ["the".toList, "Cat".toList] :=
  (SplitIntoWords_maximal_runs []).2.2.2 2 [("the".toList, 2), ("Cat".toList, 1)] (by decide)

/-- C9 at the failing input: with the stop word `in`, the query token `-in` is
not dropped by `ParseQuery`.  The whole token is inserted in the plus set, and
`FindTopDocuments` returns document 0, which holds the token `-in`. -/
theorem ParseQuery_minus_stop_word_in_plus :
    IsStopWord dashServer "in".toList = true ∧
    IsStopWord dashServer "-in".toList = false ∧
    (ParseQuery dashServer "-in".toList).plus = ["-in".toList] ∧
    (ParseQuery dashServer "-in".toList).minus = [] ∧
    (FindTopDocuments (insertionStdSort (Document ℚ)) exampleLog dashServer "-in".toList).map
      (List.map Document.id) = some [0] := by
  refine ⟨by decide, by decide, by decide, by decide, ?_⟩
  decide

/-- C10: in a server reached by calls of `SetStopWords`, `SetDocumentCount` and
`AddDocument`, a query token that is the single character `-` is ignored: the
query with the token put in at any place among its tokens has the same result
of `FindTopDocuments` (and `FindTopDocuments` returns, it throws nothing).  No
word that `ParseQuery` looks at is empty. -/
theorem FindTopDocuments_lone_minus_ignored (S : StdSort (Document R)) (log : R → R)
    (calls : List Call) (raw_query raw_query' : Str) (before after : List Str)
    (hq : SplitIntoWords raw_query = before ++ after)
    (hq' : SplitIntoWords raw_query' = before ++ ['-'] :: after) :
    (∃ result, FindTopDocuments S log (runCalls R calls) raw_query' = some result ∧
      FindTopDocuments S log (runCalls R calls) raw_query = some result) ∧
    (∀ word ∈ SplitIntoWordsNoStop (runCalls R calls) raw_query', word ≠ []) := by
  refine ⟨?_, SplitIntoWordsNoStop_nonempty _ _⟩
  obtain ⟨hstop, hidx⟩ := runCalls_empty_word (R := R) calls
  have hsame : sameUpToEmpty (ParseQuery (runCalls R calls) raw_query)
      (ParseQuery (runCalls R calls) raw_query') := by
    unfold ParseQuery
    rw [SplitIntoWordsNoStop_eq_filter, SplitIntoWordsNoStop_eq_filter, hq, hq',
      List.filter_append, List.filter_append, List.foldl_append, List.foldl_append]
    by_cases hdash : IsStopWord (runCalls R calls) ['-'] = true
    · rw [List.filter_cons_of_neg (by simp [hdash])]
      exact ⟨rfl, rfl⟩
    · rw [List.filter_cons_of_pos (by simpa using hdash), List.foldl_cons]
      apply foldl_parseStep_sameUpToEmpty
      have hnil : IsStopWord (runCalls R calls) [] = false := by
        cases h : IsStopWord (runCalls R calls) [] with
        | false => rfl
        | true => exact absurd ((IsStopWord_iff _ _).1 h) hstop
      refine ⟨?_, ?_⟩
      · simp [parseStep, hnil]
      · simp only [parseStep, hnil, Bool.false_eq_true, not_false_eq_true, and_self, if_true]
        exact filter_setInsert_nil _
  have hall : FindAllDocuments log (runCalls R calls) (ParseQuery (runCalls R calls) raw_query')
      = FindAllDocuments log (runCalls R calls) (ParseQuery (runCalls R calls) raw_query) := by
    rw [FindAllDocuments_eq, FindAllDocuments_eq,
      relevanceMap_sameUpToEmpty log _ _ _ hidx hsame]
  obtain ⟨cands, hc, htop⟩ := FindTopDocuments_eq S log (runCalls R calls) raw_query
  obtain ⟨cands', hc', htop'⟩ := FindTopDocuments_eq S log (runCalls R calls) raw_query'
  rw [hall, hc] at hc'
  cases hc'
  exact ⟨_, htop', htop⟩

/-- C10 at a concrete server: the queries `cat dog` and `cat - dog`. -/
theorem FindTopDocuments_lone_minus_ignored_witness :
    SplitIntoWords "cat dog".toList = ["cat".toList] ++ ["dog".toList] ∧
    SplitIntoWords "cat - dog".toList = ["cat".toList] ++ ['-'] :: ["dog".toList] ∧
    ∃ result, FindTopDocuments (insertionStdSort (Document ℚ)) exampleLog
        (runCalls ℚ [.setStopWords "a an in on".toList, .setDocumentCount 2,
          .addDocument 0 "the cat sat on a mat".toList,
          .addDocument 1 "the dog barked in the yard".toList]) "cat - dog".toList
        = some result ∧
      FindTopDocuments (insertionStdSort (Document ℚ)) exampleLog
        (runCalls ℚ [.setStopWords "a an in on".toList, .setDocumentCount 2,
          .addDocument 0 "the cat sat on a mat".toList,
          .addDocument 1 "the dog barked in the yard".toList]) "cat dog".toList
        = some result :=
  ⟨by decide, by decide,
    (FindTopDocuments_lone_minus_ignored (insertionStdSort (Document ℚ)) exampleLog
      [.setStopWords "a an in on".toList, .setDocumentCount 2,
        .addDocument 0 "the cat sat on a mat".toList,
        .addDocument 1 "the dog barked in the yard".toList]
      "cat dog".toList "cat - dog".toList ["cat".toList] ["dog".toList]
      (by decide) (by decide)).1⟩

/-- C11, as the code has it: in the scenario the stored term frequency of `cat`
in document 0 is `1 / 4` (the text has four words that are no stop words), that
of `dog` in document 1 is `1 / 5`, and `FindTopDocuments` for `cat dog` returns
exactly document 0 with the relevance `ln 2 / 4`, then document 1 with the
relevance `ln 2 / 5`. -/
theorem FindTopDocuments_scenario (S : StdSort (Document ℝ)) :
    storedTf (runCalls ℝ exampleCalls) "cat".toList 0 = some (1 / 4) ∧
    storedTf (runCalls ℝ exampleCalls) "dog".toList 1 = some (1 / 5) ∧
    FindTopDocuments S Real.log (runCalls ℝ exampleCalls) "cat dog".toList
      = some [{ id := 0, relevance := Real.log 2 / 4 },
          { id := 1, relevance := Real.log 2 / 5 }] := by
  refine ⟨scenario_tf_cat, scenario_tf_dog, ?_⟩
  obtain ⟨cands, hc, htop⟩ := FindTopDocuments_eq S Real.log (runCalls ℝ exampleCalls)
    "cat dog".toList
  rw [scenario_candidates] at hc
  cases hc
  rw [htop, StdSort.sort_eq_self S byRelevance byRelevance_strictWeakOrdering]
  · rfl
  · have hlog : 0 < Real.log 2 := Real.log_pos one_lt_two
    simp only [List.pairwise_cons, List.mem_cons, List.mem_singleton, forall_eq_or_imp,
      forall_eq, List.not_mem_nil, false_implies, implies_true, List.Pairwise.nil, and_true,
      byRelevance, decide_eq_true_eq, gt_iff_lt]
    linarith

/-- C11 as the specification has it fails: the stored term frequency of `cat`
in document 0 is not `1 / 5`. -/
theorem FindTopDocuments_scenario_tf_not_fifth :
    storedTf (runCalls ℝ exampleCalls) "cat".toList 0 ≠ some (1 / 5) := by
  rw [scenario_tf_cat]
  norm_num

/-- C12: for a query all of whose tokens are stop words (the empty query and a
query of spaces have no token), `ParseQuery` yields an empty plus set and an
empty minus set, and `FindTopDocuments` returns the empty list. -/
theorem FindTopDocuments_stop_words_only (S : StdSort (Document R)) (log : R → R)
    (s : SearchServer R) (raw_query : Str)
    (h : ∀ w ∈ SplitIntoWords raw_query, IsStopWord s w = true) :
    (ParseQuery s raw_query).plus = [] ∧ (ParseQuery s raw_query).minus = [] ∧
    FindTopDocuments S log s raw_query = some [] := by
  have hq : ParseQuery s raw_query = { plus := [], minus := [] } := by
    unfold ParseQuery
    rw [SplitIntoWordsNoStop_eq_nil s raw_query h]
    rfl
  refine ⟨by rw [hq], by rw [hq], ?_⟩
  obtain ⟨cands, hc, htop⟩ := FindTopDocuments_eq S log s raw_query
  rw [hq, FindAllDocuments_eq] at hc
  have hnil : cands = [] := by
    cases hc
    rfl
  rw [htop, hnil, StdSort.sort_nil S byRelevance byRelevance_strictWeakOrdering]
  rfl

/-- C12 at a concrete server: the query `in a  on` and the stop words
`a an in on`. -/
theorem FindTopDocuments_stop_words_only_witness :
    (∀ w ∈ SplitIntoWords "in a  on".toList, IsStopWord exampleServer w = true) ∧
    FindTopDocuments (insertionStdSort (Document ℚ)) exampleLog exampleServer
      "in a  on".toList = some [] :=
  ⟨by decide,
    (FindTopDocuments_stop_words_only (insertionStdSort (Document ℚ)) exampleLog
      exampleServer "in a  on".toList (by decide)).2.2⟩

/-- C13: `AddDocument` with a text all of whose tokens are stop words (or with
no token) returns and leaves the server, its posting index included, as it
was; and a document id that had no posting before the call is in the result of
`FindTopDocuments` for no query after it. -/
theorem AddDocument_stop_words_only (s : SearchServer R) (document_id : Int) (document : Str)
    (h : ∀ w ∈ SplitIntoWords document, IsStopWord s w = true) :
    AddDocument s document_id document = s ∧
    ((∀ t, hasPosting s t document_id = false) →
      ∀ (S : StdSort (Document R)) (log : R → R) (raw_query : Str),
        ∃ result, FindTopDocuments S log (AddDocument s document_id document) raw_query
            = some result ∧
          ∀ doc ∈ result, doc.id ≠ document_id) := by
  have hsame : AddDocument s document_id document = s := by
    unfold AddDocument
    rw [SplitIntoWordsNoStop_eq_nil s document h]
    rfl
  refine ⟨hsame, ?_⟩
  intro hnew S log raw_query
  rw [hsame]
  obtain ⟨cands, result, hc, hr, hsub⟩ := FindTopDocuments_subset S log s raw_query
  obtain ⟨cands', hc', _, hmem⟩ := mem_FindAllDocuments log s (ParseQuery s raw_query)
  rw [hc] at hc'
  cases hc'
  refine ⟨result, hr, ?_⟩
  intro doc hdoc hid
  obtain ⟨t, _, ht⟩ := List.any_eq_true.1 ((hmem doc).1 (hsub doc hdoc)).1.1
  rw [hid, hnew t] at ht
  exact Bool.false_ne_true ht

/-- C13 at a concrete call: the text `on a  in` added under the id 7 to a
server with the stop words `a an in on` and two documents. -/
theorem AddDocument_stop_words_only_witness :
    (∀ w ∈ SplitIntoWords "on a  in".toList, IsStopWord exampleServer w = true) ∧
    (∀ t, hasPosting exampleServer t 7 = false) ∧
    AddDocument exampleServer 7 "on a  in".toList = exampleServer ∧
    ∃ result, FindTopDocuments (insertionStdSort (Document ℚ)) exampleLog
        (AddDocument exampleServer 7 "on a  in".toList) "the cat".toList = some result ∧
      ∀ doc ∈ result, doc.id ≠ 7 :=
  ⟨by decide, hasPosting_of_not_indexed exampleServer 7 (by decide),
    (AddDocument_stop_words_only exampleServer 7 "on a  in".toList (by decide)).1,
    (AddDocument_stop_words_only exampleServer 7 "on a  in".toList (by decide)).2
      (hasPosting_of_not_indexed exampleServer 7 (by decide))
      (insertionStdSort (Document ℚ)) exampleLog "the cat".toList⟩

/-- C14: two queries with the same tokens, whatever their order and however
often each is repeated (token lists that are permutations of one another are a
case), have the same result of `FindAllDocuments`, with the same relevance for
every document, and the same result of `FindTopDocuments`. -/
theorem FindAllDocuments_token_order (S : StdSort (Document R)) (log : R → R)
    (s : SearchServer R) (raw_query raw_query' : Str)
    (h : ∀ w ∈ SplitIntoWords raw_query, w ∈ SplitIntoWords raw_query')
    (h' : ∀ w ∈ SplitIntoWords raw_query', w ∈ SplitIntoWords raw_query) :
    (∃ cands, FindAllDocuments log s (ParseQuery s raw_query) = some cands ∧
      FindAllDocuments log s (ParseQuery s raw_query') = some cands) ∧
    (∃ result, FindTopDocuments S log s raw_query = some result ∧
      FindTopDocuments S log s raw_query' = some result) := by
  have hmem := mem_ParseQuery_congr s raw_query raw_query' (fun w => ⟨h w, h' w⟩)
  have hrel : relevanceMap log s (ParseQuery s raw_query)
      = relevanceMap log s (ParseQuery s raw_query') :=
    relevanceMap_congr log s _ _ (ParseQuery_nodup s raw_query).1
      (ParseQuery_nodup s raw_query').1 (fun x => (hmem x).1) (fun x => (hmem x).2)
  have hall : FindAllDocuments log s (ParseQuery s raw_query')
      = FindAllDocuments log s (ParseQuery s raw_query) := by
    rw [FindAllDocuments_eq, FindAllDocuments_eq, hrel]
  obtain ⟨cands, hc, htop⟩ := FindTopDocuments_eq S log s raw_query
  obtain ⟨cands', hc', htop'⟩ := FindTopDocuments_eq S log s raw_query'
  rw [hall, hc] at hc'
  cases hc'
  exact ⟨⟨cands, hc, hall ▸ hc⟩, ⟨_, htop, htop'⟩⟩

/-- C14 at a concrete server: the queries `cat the -dog` and
`the -dog  cat the`. -/
theorem FindAllDocuments_token_order_witness :
    (∀ w ∈ SplitIntoWords "cat the -dog".toList, w ∈ SplitIntoWords "the -dog  cat the".toList) ∧
    (∀ w ∈ SplitIntoWords "the -dog  cat the".toList, w ∈ SplitIntoWords "cat the -dog".toList) ∧
    ∃ result, FindTopDocuments (insertionStdSort (Document ℚ)) exampleLog exampleServer
        "cat the -dog".toList = some result ∧
      FindTopDocuments (insertionStdSort (Document ℚ)) exampleLog exampleServer
        "the -dog  cat the".toList = some result :=
  ⟨by decide, by decide,
    (FindAllDocuments_token_order (insertionStdSort (Document ℚ)) exampleLog exampleServer
      "cat the -dog".toList "the -dog  cat the".toList (by decide) (by decide)).2⟩

/-- C15: in a server reached by calls of the public methods whose document
count is at least the number of document ids in the index, and for a function
`log` that is not negative from 1 on (as the natural logarithm), every
relevance returned by `FindTopDocuments` is not negative; every stored term
frequency is positive. -/
theorem FindTopDocuments_relevance_nonneg (S : StdSort (Document R)) (log : R → R)
    (calls : List Call) (raw_query : Str)
    (hlog : ∀ x : R, 1 ≤ x → 0 ≤ log x)
    (hcount : ((indexedIds (runCalls R calls)).toFinset.card : Int)
      ≤ (runCalls R calls).document_count_) :
    (∃ result, FindTopDocuments S log (runCalls R calls) raw_query = some result ∧
      ∀ doc ∈ result, 0 ≤ doc.relevance) ∧
    (∀ p ∈ (runCalls R calls).word_to_document_freqs_, ∀ e ∈ p.2, 0 < e.2) := by
  refine ⟨?_, runCalls_tfPositive calls⟩
  obtain ⟨cands, result, hc, hr, hsub⟩ :=
    FindTopDocuments_subset S log (runCalls R calls) raw_query
  obtain ⟨cands', hc', _, hmem⟩ :=
    mem_FindAllDocuments log (runCalls R calls) (ParseQuery (runCalls R calls) raw_query)
  rw [hc] at hc'
  cases hc'
  refine ⟨result, hr, ?_⟩
  intro doc hdoc
  rw [((hmem doc).1 (hsub doc hdoc)).2]
  apply List.sum_nonneg
  intro x hx
  obtain ⟨t, _, rfl⟩ := List.mem_map.1 hx
  exact contribution_nonneg log hlog _ (runCalls_postingsNodup calls)
    (runCalls_tfPositive calls) hcount t doc.id

/-- C15 at a concrete server: two documents and the document count 2. -/
theorem FindTopDocuments_relevance_nonneg_witness :
    (∀ x : ℚ, 1 ≤ x → 0 ≤ exampleLog x) ∧
    ((indexedIds (runCalls ℚ exampleCalls)).toFinset.card : Int)
      ≤ (runCalls ℚ exampleCalls).document_count_ ∧
    ∃ result, FindTopDocuments (insertionStdSort (Document ℚ)) exampleLog
        (runCalls ℚ exampleCalls) "the cat dog".toList = some result ∧
      ∀ doc ∈ result, 0 ≤ doc.relevance :=
  ⟨fun _ hx => sub_nonneg.2 hx, by decide,
    (FindTopDocuments_relevance_nonneg (insertionStdSort (Document ℚ)) exampleLog
      exampleCalls "the cat dog".toList (fun _ hx => sub_nonneg.2 hx) (by decide)).1⟩

/-- C18 as the specification has it fails with the `std::sort` of libstdc++:
after `SetDocumentCount(17)` and seventeen documents `cat` with the ids 0 to
16, every candidate of the query `cat` has the relevance 0, and the results are
the documents 8, 16, 15, 14, 13 in this order. -/
theorem FindTopDocuments_ties_libstdcxx :
    FindTopDocuments (libstdcxxStdSort (Document F64)) (F64.log id)
        (runCalls F64 (sameTextCalls 17 17 "cat".toList)) "cat".toList
      = some [⟨8, 0⟩, ⟨16, 0⟩, ⟨15, 0⟩, ⟨14, 0⟩, ⟨13, 0⟩] := by
  decide!

/-- C19 as the specification has it fails in `double` arithmetic: after
`AddDocument(0, "a a a a a a a a a a")` on a new server the only key of the
index is `a`, and the stored term frequency of the document, ten times the
rounded quotient `1.0 / 10` added up, is `1 - 2^-53`, not 1. -/
theorem AddDocument_tf_sum_rounded :
    (SearchServer.init F64).word_to_document_freqs_ = [] ∧
    SplitIntoWordsNoStop (SearchServer.init F64) "a a a a a a a a a a".toList ≠ [] ∧
    (AddDocument (SearchServer.init F64) 0
      "a a a a a a a a a a".toList).word_to_document_freqs_.map Prod.fst = ["a".toList] ∧
    storedTf (AddDocument (SearchServer.init F64) 0 "a a a a a a a a a a".toList) "a".toList 0
      = some (F64.fin false 9007199254740991 (-53)) ∧
    (((AddDocument (SearchServer.init F64) 0
      "a a a a a a a a a a".toList).word_to_document_freqs_.map Prod.fst).map
        (fun t => (storedTf (AddDocument (SearchServer.init F64) 0
          "a a a a a a a a a a".toList) t 0).getD 0)).sum ≠ 1 :=
  ⟨rfl, by decide, by decide!, by decide!, by decide!⟩

/-- C20: when the document count equals the number of documents with a posting
under a plus word and `log 1 = 0` (as for the natural logarithm), a document
with a posting under that word, under no other plus word and under no minus
word is a candidate of `FindAllDocuments` with the relevance 0, and it is in the
result of `FindTopDocuments` when there are at most 5 candidates. -/
theorem FindAllDocuments_zero_relevance (S : StdSort (Document R)) (log : R → R)
    (s : SearchServer R) (raw_query : Str) (t : Str) (d : Int)
    (hs : PostingsNodup s) (hlog : log 1 = 0)
    (ht : t ∈ (ParseQuery s raw_query).plus)
    (hN : s.document_count_ = (documentFrequency s t : Int))
    (hd : hasPosting s t d = true)
    (hother : ∀ t' ∈ (ParseQuery s raw_query).plus, t' ≠ t → hasPosting s t' d = false)
    (hminus : ∀ t' ∈ (ParseQuery s raw_query).minus, hasPosting s t' d = false) :
    ∃ cands, FindAllDocuments log s (ParseQuery s raw_query) = some cands ∧
      ({ id := d, relevance := 0 } : Document R) ∈ cands ∧
      (cands.length ≤ 5 →
        ∃ result, FindTopDocuments S log s raw_query = some result ∧
          ({ id := d, relevance := 0 } : Document R) ∈ result) := by
  obtain ⟨cands, sorted, hc, hperm, _, htop⟩ := FindTopDocuments_take S log s raw_query
  obtain ⟨cands', hc', _, hmem⟩ := mem_FindAllDocuments log s (ParseQuery s raw_query)
  rw [hc] at hc'
  cases hc'
  have hin : ({ id := d, relevance := 0 } : Document R) ∈ cands := by
    rw [hmem]
    refine ⟨⟨List.any_eq_true.2 ⟨t, ht, hd⟩, ?_⟩, ?_⟩
    · apply List.any_eq_false.2
      intro t' ht'
      simp [hminus t' ht']
    · symm
      apply List.sum_eq_zero
      intro x hx
      obtain ⟨t', ht', rfl⟩ := List.mem_map.1 hx
      show contribution log s t' d = 0
      by_cases htt : t' = t
      · subst htt
        rw [contribution_eq log s hs, hd, if_pos rfl, hN]
        have hdf : ((documentFrequency s t' : Int) : R) ≠ 0 := by
          have := documentFrequency_pos s t' d hd
          simp only [Int.cast_natCast, ne_eq, Nat.cast_eq_zero]
          omega
        rw [Int.cast_natCast] at hdf ⊢
        rw [div_self hdf, hlog, zero_mul]
      · exact contribution_of_not_hasPosting log s t' d (hother t' ht' htt)
  refine ⟨cands, hc, hin, ?_⟩
  intro hlen
  refine ⟨_, htop, ?_⟩
  rw [List.take_of_length_le (by rw [hperm.length_eq]; exact hlen)]
  exact hperm.mem_iff.2 hin

/-- C20 at a concrete server: `the` occurs in both documents and the document
count is 2. -/
theorem FindAllDocuments_zero_relevance_witness :
    PostingsNodup exampleServer ∧ exampleLog 1 = 0 ∧
    "the".toList ∈ (ParseQuery exampleServer "the".toList).plus ∧
    exampleServer.document_count_ = (documentFrequency exampleServer "the".toList : Int) ∧
    hasPosting exampleServer "the".toList 0 = true ∧
    ∃ cands, FindAllDocuments exampleLog exampleServer
        (ParseQuery exampleServer "the".toList) = some cands ∧
      ({ id := 0, relevance := 0 } : Document ℚ) ∈ cands ∧
      (cands.length ≤ 5 →
        ∃ result, FindTopDocuments (insertionStdSort (Document ℚ)) exampleLog exampleServer
            "the".toList = some result ∧
          ({ id := 0, relevance := 0 } : Document ℚ) ∈ result) :=
  ⟨by unfold PostingsNodup; decide, sub_self 1, by decide, by decide, by decide,
    FindAllDocuments_zero_relevance (insertionStdSort (Document ℚ)) exampleLog exampleServer
      "the".toList "the".toList 0 (by unfold PostingsNodup; decide) (sub_self 1) (by decide)
      (by decide) (by decide) (by decide) (by decide)⟩

end Claims

end SearchServerModel
